import Mathlib

/-!
# Verification of the `borrow-check` relation data structures

This file embeds, in Lean, the two transitive-reachability-preserving
graph representations of the repository:

* the chunked sparse bitset / bit matrix and the matrix-backed relation
  (`matrix-relation/src/bitvec.rs`, `matrix-relation/src/lib.rs`), and
* the adjacency-list relation with its intrusive edge lists and edge
  free list (`relation/src/lib.rs`),

and proves (or refutes, on concrete inputs) the specified properties of
their operations.

Machine integers: the Rust code stores chunk payloads in `u128` words
and keys in `u32`; words are embedded as `Nat` (operations only ever
combine values `< 2^128`, and well-formedness predicates record that
bound where a statement needs it).  The Rust expression `old & !bits`
on `u128` is embedded as `old ^^^ (old &&& bits)`, which agrees with it
bit-for-bit whenever `old < 2^128`.

Loops of the Rust code that walk linked structures or a worklist are
embedded with an explicit fuel parameter and return `none` when the
fuel runs out (or when the Rust original would panic on an `unwrap`);
termination theorems show sufficient fuel exists.
-/

namespace BC

/-- Number of bits of the `Word` type (`type Word = u128`). -/
def wordBits : Nat := 128

/-- `old & !bits` at `u128` type, embedded on `Nat`.  For `old < 2^128`
this agrees with the Rust expression bit-for-bit (high bits of the
complement are irrelevant because `old` has none). -/
def wdiff (old bits : Nat) : Nat := old ^^^ (old &&& bits)

theorem testBit_wdiff (a b k : Nat) :
    (wdiff a b).testBit k = (a.testBit k && !(b.testBit k)) := by
  simp only [wdiff, Nat.testBit_xor, Nat.testBit_land]
  cases a.testBit k <;> cases b.testBit k <;> rfl

/-! ## The BTreeMap, as a key-sorted association list

`SparseBitSet` stores `chunk_bits: BTreeMap<u32, Word>`: a finite map
from chunk keys to words, iterated in increasing key order.  We embed
it as an association list kept strictly sorted by key. -/

/-- `BTreeMap::get` (first matching key). -/
def mapGet : List (Nat × Nat) → Nat → Option Nat
  | [], _ => none
  | (k1, v1) :: rest, k => if k = k1 then some v1 else mapGet rest k

/-- `BTreeMap::insert`: replace the value at `k`, keeping keys sorted. -/
def mapInsert (k v : Nat) : List (Nat × Nat) → List (Nat × Nat)
  | [] => [(k, v)]
  | (k1, v1) :: rest =>
    if k < k1 then (k, v) :: (k1, v1) :: rest
    else if k = k1 then (k, v) :: rest
    else (k1, v1) :: mapInsert k v rest

/-- `BTreeMap::remove`: drop the entry at `k` (if any). -/
def mapErase (k : Nat) : List (Nat × Nat) → List (Nat × Nat)
  | [] => []
  | (k1, v1) :: rest => if k = k1 then rest else (k1, v1) :: mapErase k rest

theorem mapGet_mapInsert_self (k v : Nat) (l : List (Nat × Nat)) :
    mapGet (mapInsert k v l) k = some v := by
  induction l with
  | nil => simp [mapInsert, mapGet]
  | cons hd tl ih =>
    obtain ⟨k1, v1⟩ := hd
    by_cases h1 : k < k1
    · simp [mapInsert, mapGet, h1]
    · by_cases h2 : k = k1
      · simp [mapInsert, mapGet, h1, h2]
      · simp [mapInsert, mapGet, h1, h2, ih]

theorem mapGet_mapInsert_ne (k v k0 : Nat) (l : List (Nat × Nat)) (h : k0 ≠ k) :
    mapGet (mapInsert k v l) k0 = mapGet l k0 := by
  induction l with
  | nil => simp [mapInsert, mapGet, h]
  | cons hd tl ih =>
    obtain ⟨k1, v1⟩ := hd
    by_cases h1 : k < k1
    · simp only [mapInsert, if_pos h1, mapGet, if_neg h]
    · by_cases h2 : k = k1
      · subst h2
        simp only [mapInsert, if_neg h1, if_pos rfl, mapGet, if_neg h]
      · simp only [mapInsert, if_neg h1, if_neg h2, mapGet]
        by_cases h0 : k0 = k1
        · simp [h0]
        · simp [h0, ih]

theorem mapGet_mapErase_ne (k k0 : Nat) (l : List (Nat × Nat)) (h : k0 ≠ k) :
    mapGet (mapErase k l) k0 = mapGet l k0 := by
  induction l with
  | nil => simp [mapErase]
  | cons hd tl ih =>
    obtain ⟨k1, v1⟩ := hd
    by_cases h1 : k = k1
    · subst h1
      simp [mapErase, mapGet, h]
    · by_cases h0 : k0 = k1 <;> simp [mapErase, mapGet, h1, h0, ih]

theorem mapGet_eq_none_of_forall_lt (k : Nat) (l : List (Nat × Nat))
    (h : ∀ p ∈ l, k < p.1) : mapGet l k = none := by
  induction l with
  | nil => rfl
  | cons hd tl ih =>
    obtain ⟨k1, v1⟩ := hd
    have hk : k ≠ k1 := Nat.ne_of_lt (h (k1, v1) (List.mem_cons_self _ _))
    simp only [mapGet, if_neg hk]
    exact ih fun p hp => h p (List.mem_cons_of_mem _ hp)

theorem mapGet_mapErase_self (k : Nat) (l : List (Nat × Nat))
    (hs : l.Pairwise (fun a b => a.1 < b.1)) :
    mapGet (mapErase k l) k = none := by
  induction l with
  | nil => simp [mapErase, mapGet]
  | cons hd tl ih =>
    obtain ⟨k1, v1⟩ := hd
    rw [List.pairwise_cons] at hs
    by_cases h1 : k = k1
    · subst h1
      simp only [mapErase, if_pos rfl]
      exact mapGet_eq_none_of_forall_lt _ _ hs.1
    · simp only [mapErase, if_neg h1, mapGet, if_neg h1]
      exact ih hs.2

/-! ## `SparseChunk` and `SparseBitSet` (`matrix-relation/src/bitvec.rs`) -/

/-- `SparseChunk<I> { key: u32, bits: Word }`. -/
structure SparseChunk where
  key : Nat
  bits : Nat
deriving DecidableEq

namespace SparseChunk

/-- `SparseChunk::one(index)`: the chunk holding exactly `index`. -/
def one (index : Nat) : SparseChunk :=
  { key := index / wordBits, bits := 1 <<< (index % wordBits) }

/-- `SparseChunk::any`. -/
def any (c : SparseChunk) : Bool := c.bits ≠ 0

/-- `SparseChunk::bits_eq`. -/
def bits_eq (c other : SparseChunk) : Bool := c.bits = other.bits

/-- `SparseChunk::iter`: the indices whose bit is set, in increasing
order.  The Rust iterator scans bit positions `0..128` of the word and
yields `key * 128 + i` for each set bit `i`. -/
def toList (c : SparseChunk) : List Nat :=
  ((List.range wordBits).filter fun i => c.bits.testBit i).map
    fun i => c.key * wordBits + i

/-- Membership of an index in a chunk, as the Rust iterator yields it. -/
def memb (c : SparseChunk) (i : Nat) : Bool :=
  (c.key = i / wordBits) && c.bits.testBit (i % wordBits)

theorem mem_toList (c : SparseChunk) (i : Nat) :
    i ∈ c.toList ↔ c.memb i = true := by
  simp only [toList, List.mem_map, List.mem_filter, List.mem_range, memb,
    Bool.and_eq_true, decide_eq_true_eq]
  constructor
  · rintro ⟨j, ⟨hj, hbit⟩, rfl⟩
    have hdiv : (c.key * wordBits + j) / wordBits = c.key := by
      rw [Nat.mul_comm, Nat.mul_add_div (by decide : 0 < wordBits)]
      simp [Nat.div_eq_of_lt hj]
    have hmod : (c.key * wordBits + j) % wordBits = j := by
      rw [Nat.mul_comm, Nat.mul_add_mod]
      exact Nat.mod_eq_of_lt hj
    rw [hdiv, hmod]
    exact ⟨rfl, hbit⟩
  · rintro ⟨hk, hbit⟩
    refine ⟨i % wordBits, ⟨Nat.mod_lt _ (by decide), hbit⟩, ?_⟩
    rw [hk, Nat.mul_comm]
    exact Nat.div_add_mod i wordBits

end SparseChunk

/-- `SparseBitSet<I> { chunk_bits: BTreeMap<u32, Word> }`. -/
structure SparseBitSet where
  chunk_bits : List (Nat × Nat)
deriving DecidableEq

namespace SparseBitSet

/-- `SparseBitSet::new`. -/
def new : SparseBitSet := ⟨[]⟩

/-- The word stored at `key` (`0` when the entry is absent). -/
def word (s : SparseBitSet) (key : Nat) : Nat :=
  (mapGet s.chunk_bits key).getD 0

/-- `SparseBitSet::contains_chunk`: same key, `bits = stored & chunk.bits`. -/
def contains_chunk (s : SparseBitSet) (c : SparseChunk) : SparseChunk :=
  { key := c.key, bits := s.word c.key &&& c.bits }

/-- `SparseBitSet::insert_chunk`.  Returns the chunk of newly added
bits together with the updated set. -/
def insert_chunk (s : SparseBitSet) (c : SparseChunk) : SparseChunk × SparseBitSet :=
  if c.bits = 0 then (c, s)
  else
    let old_bits := s.word c.key
    let new_bits := old_bits ||| c.bits
    ({ key := c.key, bits := new_bits ^^^ old_bits },
      ⟨mapInsert c.key new_bits s.chunk_bits⟩)

/-- `SparseBitSet::remove_chunk`.  Returns the chunk of newly cleared
bits together with the updated set; deletes the entry when its word
becomes zero. -/
def remove_chunk (s : SparseBitSet) (c : SparseChunk) : SparseChunk × SparseBitSet :=
  if c.bits = 0 then (c, s)
  else
    match mapGet s.chunk_bits c.key with
    | some old_bits =>
      let new_bits := wdiff old_bits c.bits
      ({ key := c.key, bits := new_bits ^^^ old_bits },
        if new_bits = 0 then ⟨mapErase c.key s.chunk_bits⟩
        else ⟨mapInsert c.key new_bits s.chunk_bits⟩)
    | none => ({ key := c.key, bits := 0 }, s)

/-- `SparseBitSet::chunks`: all stored chunks in key order. -/
def chunks (s : SparseBitSet) : List SparseChunk :=
  s.chunk_bits.map fun kv => { key := kv.1, bits := kv.2 }

/-- `SparseBitSet::insert_chunks`: union another set in, chunk by
chunk; returns whether anything was added. -/
def insert_chunks (s : SparseBitSet) (other : SparseBitSet) : Bool × SparseBitSet :=
  other.chunks.foldl
    (fun acc c =>
      let r := acc.2.insert_chunk c
      (acc.1 || r.1.any, r.2))
    (false, s)

/-- `SparseBitSet::contains`. -/
def contains (s : SparseBitSet) (index : Nat) : Bool :=
  (s.contains_chunk (SparseChunk.one index)).any

/-- `SparseBitSet::insert`. -/
def insert (s : SparseBitSet) (index : Nat) : Bool × SparseBitSet :=
  let r := s.insert_chunk (SparseChunk.one index)
  (r.1.any, r.2)

/-- `SparseBitSet::remove`. -/
def remove (s : SparseBitSet) (index : Nat) : Bool × SparseBitSet :=
  let r := s.remove_chunk (SparseChunk.one index)
  (r.1.any, r.2)

/-- `SparseBitSet::clear`. -/
def clear (_s : SparseBitSet) : SparseBitSet := ⟨[]⟩

/-- `SparseBitSet::iter`: all members, in increasing order. -/
def toList (s : SparseBitSet) : List Nat :=
  (s.chunks.map SparseChunk.toList).flatten

/-- Well-formedness enjoyed by every set the Rust code can build: the
`BTreeMap` keys are strictly sorted, and every stored word fits in a
`u128`. -/
def WF (s : SparseBitSet) : Prop :=
  s.chunk_bits.Pairwise (fun a b => a.1 < b.1) ∧
    ∀ kv ∈ s.chunk_bits, kv.2 < 2 ^ wordBits

/-- The chunk invariant of the spec: no stored entry has a zero word. -/
def NZ (s : SparseBitSet) : Prop :=
  ∀ kv ∈ s.chunk_bits, kv.2 ≠ 0

instance decWF (s : SparseBitSet) : Decidable s.WF := by
  unfold WF
  infer_instance

instance decNZ (s : SparseBitSet) : Decidable s.NZ := by
  unfold NZ
  infer_instance

end SparseBitSet

/-! ### Word-level characterization of the bitset operations -/

theorem testBit_singleton (j k : Nat) : (1 <<< j).testBit k = decide (j = k) := by
  rw [Nat.shiftLeft_eq, Nat.one_mul, Nat.testBit_two_pow]

theorem and_singleton_ne_zero (w j : Nat) : (w &&& (1 <<< j) ≠ 0) ↔ w.testBit j = true := by
  constructor
  · intro h
    obtain ⟨i, hi⟩ := Nat.ne_zero_implies_bit_true h
    rw [Nat.testBit_and, testBit_singleton, Bool.and_eq_true, decide_eq_true_eq] at hi
    obtain ⟨h1, h2⟩ := hi
    subst h2
    exact h1
  · intro h hz
    have hbit : (w &&& 1 <<< j).testBit j = true := by
      rw [Nat.testBit_and, testBit_singleton, h]
      simp
    rw [hz, Nat.zero_testBit] at hbit
    exact Bool.false_ne_true hbit

namespace SparseBitSet

theorem contains_iff (s : SparseBitSet) (i : Nat) :
    s.contains i = true ↔ (s.word (i / wordBits)).testBit (i % wordBits) = true := by
  simp only [contains, contains_chunk, SparseChunk.one, SparseChunk.any,
    decide_eq_true_eq]
  exact and_singleton_ne_zero _ _

theorem word_insert_chunk (s : SparseBitSet) (c : SparseChunk) (k : Nat) :
    ((s.insert_chunk c).2).word k =
      if k = c.key then s.word k ||| c.bits else s.word k := by
  unfold insert_chunk
  by_cases h0 : c.bits = 0
  · rw [if_pos h0, h0]
    split <;> simp
  · rw [if_neg h0]
    by_cases hk : k = c.key
    · subst hk
      simp [word, mapGet_mapInsert_self]
    · rw [if_neg hk]
      simp [word, mapGet_mapInsert_ne _ _ _ _ hk]

theorem delta_insert_chunk (s : SparseBitSet) (c : SparseChunk) :
    (s.insert_chunk c).1 = ⟨c.key, wdiff c.bits (s.word c.key)⟩ := by
  unfold insert_chunk
  by_cases h0 : c.bits = 0
  · rw [if_pos h0]
    cases c with
    | mk key bits =>
      have hb : bits = 0 := h0
      subst hb
      simp [wdiff]
  · rw [if_neg h0]
    simp only [SparseChunk.mk.injEq, true_and]
    apply Nat.eq_of_testBit_eq
    intro k
    simp only [Nat.testBit_xor, Nat.testBit_or, testBit_wdiff]
    cases (s.word c.key).testBit k <;> cases c.bits.testBit k <;> rfl

theorem word_remove_chunk (s : SparseBitSet) (c : SparseChunk) (k : Nat)
    (hs : s.chunk_bits.Pairwise (fun a b => a.1 < b.1)) :
    ((s.remove_chunk c).2).word k =
      if k = c.key then wdiff (s.word k) c.bits else s.word k := by
  unfold remove_chunk
  by_cases h0 : c.bits = 0
  · rw [if_pos h0, h0]
    split <;> simp [wdiff]
  · rw [if_neg h0]
    cases hget : mapGet s.chunk_bits c.key with
    | none =>
      simp only
      by_cases hk : k = c.key
      · subst hk
        simp [word, hget, wdiff]
      · rw [if_neg hk]
    | some old_bits =>
      simp only
      by_cases hk : k = c.key
      · subst hk
        rw [if_pos rfl]
        by_cases hz : wdiff old_bits c.bits = 0
        · rw [if_pos hz]
          simp [word, mapGet_mapErase_self _ _ hs, hget, hz]
        · rw [if_neg hz]
          simp [word, mapGet_mapInsert_self, hget]
      · rw [if_neg hk]
        by_cases hz : wdiff old_bits c.bits = 0
        · rw [if_pos hz]
          simp [word, mapGet_mapErase_ne _ _ _ hk]
        · rw [if_neg hz]
          simp [word, mapGet_mapInsert_ne _ _ _ _ hk]

theorem delta_remove_chunk (s : SparseBitSet) (c : SparseChunk) :
    (s.remove_chunk c).1 = ⟨c.key, s.word c.key &&& c.bits⟩ := by
  unfold remove_chunk
  by_cases h0 : c.bits = 0
  · rw [if_pos h0]
    cases c with
    | mk key bits =>
      have hb : bits = 0 := h0
      subst hb
      simp
  · rw [if_neg h0]
    cases hget : mapGet s.chunk_bits c.key with
    | none =>
      simp [word, hget]
    | some old_bits =>
      simp only [word, hget, Option.getD_some, SparseChunk.mk.injEq, true_and]
      apply Nat.eq_of_testBit_eq
      intro k
      simp only [Nat.testBit_xor, Nat.testBit_and, testBit_wdiff]
      cases old_bits.testBit k <;> cases c.bits.testBit k <;> rfl

/-- Membership after `insert_chunk`: old members plus the chunk's bits. -/
theorem contains_insert_chunk (s : SparseBitSet) (c : SparseChunk) (i : Nat) :
    ((s.insert_chunk c).2).contains i =
      (s.contains i || c.memb i) := by
  rw [Bool.eq_iff_iff, Bool.or_eq_true, contains_iff, contains_iff,
    word_insert_chunk, SparseChunk.memb, Bool.and_eq_true, decide_eq_true_eq]
  by_cases hk : i / wordBits = c.key
  · rw [if_pos hk]
    simp only [Nat.testBit_or, Bool.or_eq_true]
    constructor
    · rintro (h | h)
      · exact Or.inl h
      · exact Or.inr ⟨hk.symm, h⟩
    · rintro (h | ⟨_, h⟩)
      · exact Or.inl h
      · exact Or.inr h
  · rw [if_neg hk]
    constructor
    · exact fun h => Or.inl h
    · rintro (h | ⟨hkk, _⟩)
      · exact h
      · exact absurd hkk.symm hk

/-- Membership after `remove_chunk`: old members minus the chunk's bits. -/
theorem contains_remove_chunk (s : SparseBitSet) (c : SparseChunk) (i : Nat)
    (hs : s.chunk_bits.Pairwise (fun a b => a.1 < b.1)) :
    ((s.remove_chunk c).2).contains i =
      (s.contains i && !(c.memb i)) := by
  rw [Bool.eq_iff_iff, Bool.and_eq_true, contains_iff, contains_iff,
    word_remove_chunk _ _ _ hs]
  by_cases hk : i / wordBits = c.key
  · have hm : c.memb i = c.bits.testBit (i % wordBits) := by
      simp [SparseChunk.memb, hk.symm]
    rw [if_pos hk, testBit_wdiff, hm, Bool.and_eq_true]
  · have hm : c.memb i = false := by
      have hne : ¬(c.key = i / wordBits) := fun hh => hk hh.symm
      simp [SparseChunk.memb, hne]
    rw [if_neg hk, hm]
    simp

end SparseBitSet

/-! ### Preservation of well-formedness and of the chunk invariant -/

theorem mem_mapInsert (k v : Nat) (l : List (Nat × Nat)) :
    ∀ p ∈ mapInsert k v l, p = (k, v) ∨ p ∈ l := by
  induction l with
  | nil =>
    intro p hp
    simp only [mapInsert, List.mem_singleton] at hp
    exact Or.inl hp
  | cons hd tl ih =>
    obtain ⟨k1, v1⟩ := hd
    intro p hp
    by_cases h1 : k < k1
    · rw [mapInsert, if_pos h1] at hp
      rcases List.mem_cons.mp hp with h | h
      · exact Or.inl h
      · exact Or.inr h
    · by_cases h2 : k = k1
      · rw [mapInsert, if_neg h1, if_pos h2] at hp
        rcases List.mem_cons.mp hp with h | h
        · exact Or.inl h
        · exact Or.inr (List.mem_cons_of_mem _ h)
      · rw [mapInsert, if_neg h1, if_neg h2] at hp
        rcases List.mem_cons.mp hp with h | h
        · rw [h]
          exact Or.inr (List.mem_cons_self _ _)
        · rcases ih p h with h3 | h3
          · exact Or.inl h3
          · exact Or.inr (List.mem_cons_of_mem _ h3)

theorem pairwise_mapInsert (k v : Nat) (l : List (Nat × Nat))
    (h : l.Pairwise (fun a b => a.1 < b.1)) :
    (mapInsert k v l).Pairwise (fun a b => a.1 < b.1) := by
  induction l with
  | nil => simp [mapInsert]
  | cons hd tl ih =>
    obtain ⟨k1, v1⟩ := hd
    rw [List.pairwise_cons] at h
    by_cases h1 : k < k1
    · rw [mapInsert, if_pos h1, List.pairwise_cons]
      refine ⟨?_, List.pairwise_cons.2 h⟩
      intro p hp
      rcases List.mem_cons.mp hp with h2 | h2
      · rw [h2]
        exact h1
      · exact Nat.lt_trans h1 (h.1 p h2)
    · by_cases h2 : k = k1
      · subst h2
        rw [mapInsert, if_neg h1, if_pos rfl, List.pairwise_cons]
        exact ⟨h.1, h.2⟩
      · rw [mapInsert, if_neg h1, if_neg h2, List.pairwise_cons]
        refine ⟨?_, ih h.2⟩
        intro p hp
        rcases mem_mapInsert k v tl p hp with h3 | h3
        · rw [h3]
          omega
        · exact h.1 p h3

theorem mapErase_sublist (k : Nat) (l : List (Nat × Nat)) :
    (mapErase k l).Sublist l := by
  induction l with
  | nil => simp [mapErase]
  | cons hd tl ih =>
    obtain ⟨k1, v1⟩ := hd
    by_cases h1 : k = k1
    · rw [mapErase, if_pos h1]
      exact List.sublist_cons_self _ _
    · rw [mapErase, if_neg h1]
      exact ih.cons₂ _

theorem mem_of_mapGet_eq_some {l : List (Nat × Nat)} {k v : Nat}
    (h : mapGet l k = some v) : (k, v) ∈ l := by
  induction l with
  | nil => simp [mapGet] at h
  | cons hd tl ih =>
    obtain ⟨k1, v1⟩ := hd
    by_cases h1 : k = k1
    · subst h1
      rw [mapGet, if_pos rfl, Option.some.injEq] at h
      subst h
      exact List.mem_cons_self _ _
    · rw [mapGet, if_neg h1] at h
      exact List.mem_cons_of_mem _ (ih h)

theorem mapGet_eq_some_of_mem {l : List (Nat × Nat)} {k v : Nat}
    (hs : l.Pairwise (fun a b => a.1 < b.1)) (h : (k, v) ∈ l) :
    mapGet l k = some v := by
  induction l with
  | nil => simp at h
  | cons hd tl ih =>
    obtain ⟨k1, v1⟩ := hd
    rw [List.pairwise_cons] at hs
    rcases List.mem_cons.mp h with h | h
    · rw [Prod.mk.injEq] at h
      rw [mapGet, if_pos h.1, h.2]
    · have hk : k ≠ k1 := by
        have := hs.1 (k, v) h
        simp only at this
        omega
      rw [mapGet, if_neg hk]
      exact ih hs.2 h

namespace SparseBitSet

theorem word_lt_of_WF {s : SparseBitSet} (hwf : s.WF) (k : Nat) :
    s.word k < 2 ^ wordBits := by
  unfold word
  cases hget : mapGet s.chunk_bits k with
  | none => simp [Nat.pos_pow_of_pos]
  | some v =>
    simpa using hwf.2 (k, v) (mem_of_mapGet_eq_some hget)

theorem wdiff_lt {a n : Nat} (ha : a < 2 ^ n) (b : Nat) : wdiff a b < 2 ^ n := by
  unfold wdiff
  exact Nat.xor_lt_two_pow ha (by rw [Nat.and_comm]; exact Nat.and_lt_two_pow b ha)

theorem WF_insert_chunk {s : SparseBitSet} (c : SparseChunk) (hwf : s.WF)
    (hc : c.bits < 2 ^ wordBits) : ((s.insert_chunk c).2).WF := by
  unfold insert_chunk
  by_cases h0 : c.bits = 0
  · rw [if_pos h0]
    exact hwf
  · rw [if_neg h0]
    constructor
    · exact pairwise_mapInsert _ _ _ hwf.1
    · intro kv hkv
      rcases mem_mapInsert _ _ _ kv hkv with h | h
      · rw [h]
        exact Nat.or_lt_two_pow (word_lt_of_WF hwf c.key) hc
      · exact hwf.2 kv h

theorem WF_remove_chunk {s : SparseBitSet} (c : SparseChunk) (hwf : s.WF) :
    ((s.remove_chunk c).2).WF := by
  unfold remove_chunk
  by_cases h0 : c.bits = 0
  · rw [if_pos h0]
    exact hwf
  · rw [if_neg h0]
    cases hget : mapGet s.chunk_bits c.key with
    | none => exact hwf
    | some old_bits =>
      simp only
      split
      · exact ⟨hwf.1.sublist (mapErase_sublist _ _),
          fun kv hkv => hwf.2 kv ((mapErase_sublist _ _).mem hkv)⟩
      · constructor
        · exact pairwise_mapInsert _ _ _ hwf.1
        · intro kv hkv
          rcases mem_mapInsert _ _ _ kv hkv with h | h
          · rw [h]
            have : old_bits < 2 ^ wordBits :=
              hwf.2 (c.key, old_bits) (mem_of_mapGet_eq_some hget)
            exact wdiff_lt this c.bits
          · exact hwf.2 kv h

theorem NZ_insert_chunk {s : SparseBitSet} (c : SparseChunk) (hnz : s.NZ) :
    ((s.insert_chunk c).2).NZ := by
  unfold insert_chunk
  by_cases h0 : c.bits = 0
  · rw [if_pos h0]
    exact hnz
  · rw [if_neg h0]
    intro kv hkv
    rcases mem_mapInsert _ _ _ kv hkv with h | h
    · rw [h]
      show s.word c.key ||| c.bits ≠ 0
      intro hz
      obtain ⟨i, hi⟩ := Nat.ne_zero_implies_bit_true h0
      have : (s.word c.key ||| c.bits).testBit i = true := by
        rw [Nat.testBit_or, hi]
        simp
      rw [hz, Nat.zero_testBit] at this
      exact Bool.false_ne_true this
    · exact hnz kv h

theorem NZ_remove_chunk {s : SparseBitSet} (c : SparseChunk) (hnz : s.NZ) :
    ((s.remove_chunk c).2).NZ := by
  unfold remove_chunk
  by_cases h0 : c.bits = 0
  · rw [if_pos h0]
    exact hnz
  · rw [if_neg h0]
    cases hget : mapGet s.chunk_bits c.key with
    | none => exact hnz
    | some old_bits =>
      simp only
      split
      · exact fun kv hkv => hnz kv ((mapErase_sublist _ _).mem hkv)
      · rename_i hz
        intro kv hkv
        rcases mem_mapInsert _ _ _ kv hkv with h | h
        · rw [h]
          exact hz
        · exact hnz kv h

end SparseBitSet

/-! ## `SparseBitMatrix` (`matrix-relation/src/bitvec.rs`)

The backing `IndexVec` comes from the crate module `indexed_vec`, whose
file is not part of the sources here; it is modelled from the spec: a
"dense indexed sequence of `BitSet` rows", embedded as a `List` indexed
by `Nat`, with `from_elem_n` as `List.replicate` and `pick2_mut`
expressed through reading one row and updating another. -/

structure SparseBitMatrix where
  vector : List SparseBitSet
deriving DecidableEq

namespace SparseBitMatrix

/-- `SparseBitMatrix::new(rows, _columns)`. -/
def new (rows : Nat) : SparseBitMatrix :=
  ⟨List.replicate rows SparseBitSet.new⟩

/-- `SparseBitMatrix::row`. -/
def row (m : SparseBitMatrix) (r : Nat) : SparseBitSet :=
  m.vector.getD r SparseBitSet.new

/-- Writing back through `row_mut`. -/
def row_set (m : SparseBitMatrix) (r : Nat) (s : SparseBitSet) : SparseBitMatrix :=
  ⟨m.vector.set r s⟩

/-- `SparseBitMatrix::add`. -/
def add (m : SparseBitMatrix) (r c : Nat) : Bool × SparseBitMatrix :=
  let p := (m.row r).insert c
  (p.1, m.row_set r p.2)

/-- `SparseBitMatrix::contains`. -/
def contains (m : SparseBitMatrix) (r c : Nat) : Bool :=
  (m.row r).contains c

/-- `SparseBitMatrix::merge`: union row `read` into row `write`,
returning whether row `write` changed.  When `read == write` the Rust
guard makes it a no-op returning `false`. -/
def merge (m : SparseBitMatrix) (read write : Nat) : Bool × SparseBitMatrix :=
  if read ≠ write then
    let p := (m.row write).insert_chunks (m.row read)
    (p.1, m.row_set write p.2)
  else (false, m)

/-- Every row of a Rust-representable matrix is well-formed. -/
def WF (m : SparseBitMatrix) : Prop := ∀ s ∈ m.vector, s.WF

instance decWF (m : SparseBitMatrix) : Decidable m.WF := by
  unfold WF
  infer_instance

theorem row_row_set_self (m : SparseBitMatrix) (r : Nat) (s : SparseBitSet)
    (hr : r < m.vector.length) : (m.row_set r s).row r = s := by
  simp [row, row_set, List.getD, List.getElem?_set_self hr]

theorem row_row_set_ne (m : SparseBitMatrix) (r r0 : Nat) (s : SparseBitSet)
    (h : r0 ≠ r) : (m.row_set r s).row r0 = m.row r0 := by
  simp [row, row_set, List.getD, List.getElem?_set_ne (fun hh => h hh.symm)]

end SparseBitMatrix

/-! ### Division/modulus helpers and further chunk lemmas -/

theorem key_mul_add_div (key j : Nat) (hj : j < wordBits) :
    (key * wordBits + j) / wordBits = key := by
  rw [Nat.mul_comm, Nat.mul_add_div (by decide : 0 < wordBits)]
  simp [Nat.div_eq_of_lt hj]

theorem key_mul_add_mod (key j : Nat) (hj : j < wordBits) :
    (key * wordBits + j) % wordBits = j := by
  rw [Nat.mul_comm, Nat.mul_add_mod]
  exact Nat.mod_eq_of_lt hj

theorem testBit_false_of_ge {x n j : Nat} (hx : x < 2 ^ n) (hj : n ≤ j) :
    x.testBit j = false :=
  Nat.testBit_lt_two_pow (Nat.lt_of_lt_of_le hx (Nat.pow_le_pow_right (by omega) hj))

namespace SparseBitSet

/-- The delta returned by `insert_chunk` is non-empty exactly when the
chunk holds a member that the set lacked. -/
theorem delta_any_iff (s : SparseBitSet) (c : SparseChunk)
    (hc : c.bits < 2 ^ wordBits) :
    (s.insert_chunk c).1.any = true ↔
      ∃ i, c.memb i = true ∧ s.contains i = false := by
  rw [delta_insert_chunk]
  simp only [SparseChunk.any, decide_eq_true_eq]
  constructor
  · intro h
    obtain ⟨j, hj⟩ := Nat.ne_zero_implies_bit_true h
    rw [testBit_wdiff, Bool.and_eq_true, Bool.not_eq_true'] at hj
    have hjlt : j < wordBits := by
      by_contra hge
      rw [testBit_false_of_ge hc (by omega)] at hj
      exact Bool.false_ne_true hj.1
    refine ⟨c.key * wordBits + j, ?_, ?_⟩
    · simp [SparseChunk.memb, key_mul_add_div _ _ hjlt, key_mul_add_mod _ _ hjlt, hj.1]
    · rw [Bool.eq_false_iff]
      intro hcont
      rw [contains_iff, key_mul_add_div _ _ hjlt, key_mul_add_mod _ _ hjlt] at hcont
      rw [hj.2] at hcont
      exact Bool.false_ne_true hcont
  · rintro ⟨i, hm, hs⟩
    rw [SparseChunk.memb, Bool.and_eq_true, decide_eq_true_eq] at hm
    intro hz
    by_cases hcv : (s.word c.key).testBit (i % wordBits) = true
    · have hcont : s.contains i = true := by
        rw [contains_iff, ← hm.1]
        exact hcv
      rw [hcont] at hs
      simp at hs
    · have hw : (s.word c.key).testBit (i % wordBits) = false :=
        Bool.eq_false_iff.mpr hcv
      have hbit : (wdiff c.bits (s.word c.key)).testBit (i % wordBits) = true := by
        rw [testBit_wdiff, hm.2, hw]
        rfl
      rw [hz, Nat.zero_testBit] at hbit
      exact Bool.false_ne_true hbit

/-- `contains` matches the chunk enumeration on sorted sets. -/
theorem contains_iff_exists_chunk (s : SparseBitSet) (i : Nat)
    (hs : s.chunk_bits.Pairwise (fun a b => a.1 < b.1)) :
    s.contains i = true ↔ ∃ c ∈ s.chunks, c.memb i = true := by
  rw [contains_iff]
  constructor
  · intro h
    cases hget : mapGet s.chunk_bits (i / wordBits) with
    | none => rw [word, hget] at h; simp at h
    | some v =>
      refine ⟨⟨i / wordBits, v⟩, ?_, ?_⟩
      · simp only [chunks, List.mem_map]
        exact ⟨(i / wordBits, v), mem_of_mapGet_eq_some hget, rfl⟩
      · rw [word, hget, Option.getD_some] at h
        simp [SparseChunk.memb, h]
  · rintro ⟨c, hc, hm⟩
    simp only [chunks, List.mem_map] at hc
    obtain ⟨kv, hkv, rfl⟩ := hc
    rw [SparseChunk.memb, Bool.and_eq_true, decide_eq_true_eq] at hm
    have hget : mapGet s.chunk_bits kv.1 = some kv.2 :=
      mapGet_eq_some_of_mem hs (by exact hkv)
    rw [← hm.1, word, hget]
    exact hm.2

/-- Folding `insert_chunk` over a chunk list: membership is the union. -/
theorem foldl_insert_contains (cs : List SparseChunk) (b : Bool) (s : SparseBitSet)
    (i : Nat) :
    ((cs.foldl (fun acc c =>
        let r := acc.2.insert_chunk c
        (acc.1 || r.1.any, r.2)) (b, s)).2).contains i =
      (s.contains i || cs.any fun c => c.memb i) := by
  induction cs generalizing b s with
  | nil => simp
  | cons c cs ih =>
    simp only [List.foldl_cons, List.any_cons]
    rw [ih, contains_insert_chunk]
    cases s.contains i <;> cases c.memb i <;> simp

/-- Folding `insert_chunk` over a chunk list: the accumulated flag is
true exactly when some chunk contributed a genuinely new member. -/
theorem foldl_insert_changed (cs : List SparseChunk)
    (hcs : ∀ c ∈ cs, c.bits < 2 ^ wordBits) (b : Bool) (s : SparseBitSet) :
    ((cs.foldl (fun acc c =>
        let r := acc.2.insert_chunk c
        (acc.1 || r.1.any, r.2)) (b, s)).1 = true) ↔
      (b = true ∨ ∃ i, (∃ c ∈ cs, c.memb i = true) ∧ s.contains i = false) := by
  induction cs generalizing b s with
  | nil => simp
  | cons c cs ih =>
    simp only [List.foldl_cons]
    rw [ih (fun c0 h0 => hcs c0 (List.mem_cons_of_mem _ h0))]
    rw [Bool.or_eq_true, delta_any_iff _ _ (hcs c (List.mem_cons_self _ _))]
    constructor
    · rintro ((hb | ⟨i, hm, hc0⟩) | ⟨i, ⟨c0, hc0, hm⟩, hcont⟩)
      · exact Or.inl hb
      · exact Or.inr ⟨i, ⟨c, List.mem_cons_self _ _, hm⟩, hc0⟩
      · rw [contains_insert_chunk] at hcont
        rcases Bool.or_eq_false_iff.mp hcont with ⟨h1, _⟩
        exact Or.inr ⟨i, ⟨c0, List.mem_cons_of_mem _ hc0, hm⟩, h1⟩
    · rintro (hb | ⟨i, ⟨c0, hc0, hm⟩, hcont⟩)
      · exact Or.inl (Or.inl hb)
      · rcases List.mem_cons.mp hc0 with h | h
        · subst h
          exact Or.inl (Or.inr ⟨i, hm, hcont⟩)
        · by_cases hci : c.memb i = true
          · exact Or.inl (Or.inr ⟨i, hci, hcont⟩)
          · refine Or.inr ⟨i, ⟨c0, h, hm⟩, ?_⟩
            rw [contains_insert_chunk, hcont, Bool.eq_false_iff.mpr hci]
            rfl

/-- Chunks of a well-formed set have `u128`-bounded payloads. -/
theorem chunks_bits_lt {s : SparseBitSet} (hwf : s.WF) :
    ∀ c ∈ s.chunks, c.bits < 2 ^ wordBits := by
  intro c hc
  simp only [chunks, List.mem_map] at hc
  obtain ⟨kv, hkv, rfl⟩ := hc
  exact hwf.2 kv hkv

end SparseBitSet

namespace SparseBitMatrix

theorem row_WF {m : SparseBitMatrix} (hwf : m.WF) (r : Nat) : (m.row r).WF := by
  by_cases hr : r < m.vector.length
  · have hmem : m.row r ∈ m.vector := by
      unfold row
      rw [List.getD_eq_getElem _ _ hr]
      exact List.getElem_mem hr
    exact hwf _ hmem
  · have hrow : m.row r = SparseBitSet.new := by
      unfold row
      exact List.getD_eq_default _ _ (by omega)
    rw [hrow]
    exact ⟨List.Pairwise.nil, fun kv h => by cases h⟩

end SparseBitMatrix

/-! ## Claims C4, C10, C6, C7 -/

/-- C4: for every `SparseBitSet` state and chunk `c`, `insert_chunk(c)`
updates the stored word at key `c.key` to the bitwise union
`old | c.bits` (creating the entry, when `c.bits` is non-zero and no
entry exists), returns a chunk with the same key whose bits are exactly
the newly added bits `c.bits & !old` (with `old = 0` for an absent
entry), and is a no-op returning an all-zero delta when `c.bits = 0`. -/
theorem C4_insert_chunk_spec (s : SparseBitSet) (c : SparseChunk) :
    ((s.insert_chunk c).2).word c.key = s.word c.key ||| c.bits ∧
    (s.insert_chunk c).1.key = c.key ∧
    (s.insert_chunk c).1.bits = wdiff c.bits (s.word c.key) ∧
    (∀ j, ((s.insert_chunk c).1.bits).testBit j
        = (c.bits.testBit j && !((s.word c.key).testBit j))) ∧
    (c.bits ≠ 0 →
      mapGet ((s.insert_chunk c).2).chunk_bits c.key
        = some (s.word c.key ||| c.bits)) ∧
    (c.bits = 0 → (s.insert_chunk c).2 = s ∧ (s.insert_chunk c).1.bits = 0) := by
  refine ⟨?_, ?_, ?_, ?_, ?_, ?_⟩
  · rw [SparseBitSet.word_insert_chunk, if_pos rfl]
  · rw [SparseBitSet.delta_insert_chunk]
  · rw [SparseBitSet.delta_insert_chunk]
  · intro j
    rw [SparseBitSet.delta_insert_chunk]
    exact testBit_wdiff _ _ _
  · intro h0
    unfold SparseBitSet.insert_chunk
    rw [if_neg h0]
    exact mapGet_mapInsert_self _ _ _
  · intro h0
    unfold SparseBitSet.insert_chunk
    rw [if_pos h0]
    exact ⟨rfl, h0⟩

theorem C4_insert_chunk_spec_witness :
    ((⟨[(0, 5)]⟩ : SparseBitSet).insert_chunk ⟨0, 3⟩).2.word 0 = 5 ||| 3 :=
  (C4_insert_chunk_spec ⟨[(0, 5)]⟩ ⟨0, 3⟩).1

/-- C10: for distinct rows `read ≠ write`, `merge(read, write)` leaves
row `read` and every row other than `write` unchanged; and
`insert_chunk(c)` / `remove_chunk(c)` leave every stored entry with key
different from `c.key` unchanged. -/
theorem C10_frame_effects (m : SparseBitMatrix) (read write : Nat)
    (hrw : read ≠ write) (s : SparseBitSet) (c : SparseChunk) :
    (∀ r, r ≠ write → ((m.merge read write).2).row r = m.row r) ∧
    (∀ k, k ≠ c.key →
      mapGet ((s.insert_chunk c).2).chunk_bits k = mapGet s.chunk_bits k) ∧
    (∀ k, k ≠ c.key →
      mapGet ((s.remove_chunk c).2).chunk_bits k = mapGet s.chunk_bits k) := by
  refine ⟨?_, ?_, ?_⟩
  · intro r hr
    unfold SparseBitMatrix.merge
    rw [if_pos hrw]
    exact SparseBitMatrix.row_row_set_ne _ _ _ _ hr
  · intro k hk
    unfold SparseBitSet.insert_chunk
    by_cases h0 : c.bits = 0
    · rw [if_pos h0]
    · rw [if_neg h0]
      exact mapGet_mapInsert_ne _ _ _ _ hk
  · intro k hk
    unfold SparseBitSet.remove_chunk
    by_cases h0 : c.bits = 0
    · rw [if_pos h0]
    · rw [if_neg h0]
      cases hget : mapGet s.chunk_bits c.key with
      | none => rfl
      | some old_bits =>
        simp only
        split
        · exact mapGet_mapErase_ne _ _ _ hk
        · exact mapGet_mapInsert_ne _ _ _ _ hk

theorem C10_frame_effects_witness :
    ((SparseBitMatrix.mk [⟨[(0, 1)]⟩, ⟨[(0, 2)]⟩]).merge 0 1).2.row 0
      = (SparseBitMatrix.mk [⟨[(0, 1)]⟩, ⟨[(0, 2)]⟩]).row 0 :=
  (C10_frame_effects _ 0 1 (by decide) ⟨[]⟩ ⟨0, 0⟩).1 0 (by decide)

/-- The operations the spec lists for reachable bitset states. -/
inductive BitSetOp where
  | ins (i : Nat)
  | rem (i : Nat)
  | insC (c : SparseChunk)
  | remC (c : SparseChunk)
  | clr
deriving DecidableEq

/-- One mutating call on a `SparseBitSet`. -/
def applyOp (s : SparseBitSet) : BitSetOp → SparseBitSet
  | .ins i => (s.insert i).2
  | .rem i => (s.remove i).2
  | .insC c => (s.insert_chunk c).2
  | .remC c => (s.remove_chunk c).2
  | .clr => s.clear

/-- A sequence of mutating calls on a `SparseBitSet`. -/
def applyOps (s : SparseBitSet) (ops : List BitSetOp) : SparseBitSet :=
  ops.foldl applyOp s

theorem NZ_applyOp (s : SparseBitSet) (op : BitSetOp) (h : s.NZ) :
    (applyOp s op).NZ := by
  cases op with
  | ins i => exact SparseBitSet.NZ_insert_chunk _ h
  | rem i => exact SparseBitSet.NZ_remove_chunk _ h
  | insC c => exact SparseBitSet.NZ_insert_chunk _ h
  | remC c => exact SparseBitSet.NZ_remove_chunk _ h
  | clr => intro kv hkv; cases hkv

theorem NZ_applyOps (s : SparseBitSet) (ops : List BitSetOp) (h : s.NZ) :
    (applyOps s ops).NZ := by
  induction ops generalizing s with
  | nil => exact h
  | cons op ops ih => exact ih _ (NZ_applyOp s op h)

/-- C6: every `SparseBitSet` reachable from `new()` by any sequence of
`insert`, `remove`, `insert_chunk`, `remove_chunk` and `clear` calls
stores no map entry with `bits == 0`. -/
theorem C6_no_zero_chunk_stored (ops : List BitSetOp) :
    (applyOps SparseBitSet.new ops).NZ :=
  NZ_applyOps _ _ (fun kv hkv => by cases hkv)

/-- C7: `merge(source, target)` makes row `target` the union of its old
value with row `source`, returns `true` iff at least one new bit
appeared in row `target`, and is a no-op returning `false` when
`source == target`. -/
theorem C7_merge_spec (m : SparseBitMatrix) (read write : Nat)
    (hwf : m.WF) (hw : write < m.vector.length) :
    (read ≠ write →
      (∀ i, (((m.merge read write).2).row write).contains i
          = ((m.row write).contains i || (m.row read).contains i)) ∧
      ((m.merge read write).1 = true ↔
        ∃ i, (m.row read).contains i = true ∧ (m.row write).contains i = false)) ∧
    (read = write → m.merge read write = (false, m)) := by
  constructor
  · intro hne
    have hmerge :
        m.merge read write =
          (((m.row write).insert_chunks (m.row read)).1,
            m.row_set write ((m.row write).insert_chunks (m.row read)).2) := by
      unfold SparseBitMatrix.merge
      rw [if_pos hne]
    constructor
    · intro i
      rw [hmerge]
      simp only
      rw [SparseBitMatrix.row_row_set_self _ _ _ hw]
      unfold SparseBitSet.insert_chunks
      rw [SparseBitSet.foldl_insert_contains]
      congr 1
      rw [Bool.eq_iff_iff, List.any_eq_true,
        ← SparseBitSet.contains_iff_exists_chunk _ _ (SparseBitMatrix.row_WF hwf read).1]
    · rw [hmerge]
      simp only
      unfold SparseBitSet.insert_chunks
      rw [SparseBitSet.foldl_insert_changed _
        (SparseBitSet.chunks_bits_lt (SparseBitMatrix.row_WF hwf read)) _ _]
      constructor
      · rintro (h | ⟨i, hex, hc⟩)
        · exact absurd h (by simp)
        · exact ⟨i, (SparseBitSet.contains_iff_exists_chunk _ _
            (SparseBitMatrix.row_WF hwf read).1).mpr hex, hc⟩
      · rintro ⟨i, hr, hc⟩
        exact Or.inr ⟨i, (SparseBitSet.contains_iff_exists_chunk _ _
          (SparseBitMatrix.row_WF hwf read).1).mp hr, hc⟩
  · intro heq
    unfold SparseBitMatrix.merge
    rw [if_neg (fun hh => hh heq)]

theorem C7_merge_spec_witness :
    (((SparseBitMatrix.mk [⟨[(0, 1)]⟩, ⟨[(0, 2)]⟩]).merge 0 1).2.row 1).contains 0
      = (((SparseBitMatrix.mk [⟨[(0, 1)]⟩, ⟨[(0, 2)]⟩]).row 1).contains 0
          || ((SparseBitMatrix.mk [⟨[(0, 1)]⟩, ⟨[(0, 2)]⟩]).row 0).contains 0) :=
  ((C7_merge_spec _ 0 1 (by decide) (by decide)).1 (by decide)).1 0

/-! ## The adjacency-list relation (`relation/src/lib.rs`)

Nodes and edges are indices into flat stores (`NodeIndex`/`EdgeIndex`
wrap `NonZeroU32`; the `value - 1` bijection with `usize` is dropped
and plain `Nat` indices are used).  Loops that walk the intrusive
linked lists take fuel and return `none` when the Rust code would
either diverge or panic on an `unwrap`. -/

namespace LR

/-- `Direction`. -/
inductive Direction where
  | Incoming
  | Outgoing
deriving DecidableEq

/-- `Direction::invert`. -/
def Direction.invert : Direction → Direction
  | .Incoming => .Outgoing
  | .Outgoing => .Incoming

/-- `Indices<N> { incoming: N, outgoing: N }`. -/
structure Indices (α : Type) where
  incoming : α
  outgoing : α
deriving DecidableEq

/-- `Index<Direction> for Indices<N>`. -/
def Indices.get {α : Type} (x : Indices α) : Direction → α
  | .Incoming => x.incoming
  | .Outgoing => x.outgoing

/-- `IndexMut<Direction> for Indices<N>` (functional update). -/
def Indices.set {α : Type} (x : Indices α) : Direction → α → Indices α
  | .Incoming, v => { x with incoming := v }
  | .Outgoing, v => { x with outgoing := v }

/-- `NodeData`. -/
structure NodeData where
  first_edges : Indices (Option Nat)
deriving DecidableEq

/-- `EdgeData`.  `nodes.incoming` is the predecessor (source) and
`nodes.outgoing` the successor (target), mirroring
`Indices::new(predecessor, successor)` in `add_edge_internal`. -/
structure EdgeData where
  nodes : Indices Nat
  next_edges : Indices (Option Nat)
deriving DecidableEq

/-- `Relation<F>`. -/
structure Relation where
  nodes : List NodeData
  edges : List EdgeData
  edge_free_list : Option Nat
deriving DecidableEq

namespace Relation

/-- `Relation::new(num_nodes)`. -/
def new (num_nodes : Nat) : Relation :=
  ⟨List.replicate num_nodes ⟨⟨none, none⟩⟩, [], none⟩

/-- `Relation::node`. -/
def node (r : Relation) (n : Nat) : NodeData :=
  r.nodes.getD n ⟨⟨none, none⟩⟩

/-- `Relation::edge`. -/
def edge (r : Relation) (e : Nat) : EdgeData :=
  r.edges.getD e ⟨⟨0, 0⟩, ⟨none, none⟩⟩

/-- `Relation::node_mut` write-back. -/
def setNode (r : Relation) (n : Nat) (d : NodeData) : Relation :=
  { r with nodes := r.nodes.set n d }

/-- `Relation::edge_mut` write-back. -/
def setEdge (r : Relation) (e : Nat) (d : EdgeData) : Relation :=
  { r with edges := r.edges.set e d }

/-- `Relation::alloc_edge`: pop the free list, or push a fresh slot. -/
def alloc_edge (r : Relation) (edge_data : EdgeData) : Relation × Nat :=
  match r.edge_free_list with
  | some free_edge =>
    let next_free_edge := (r.edge free_edge).next_edges.outgoing
    ({ r with edges := r.edges.set free_edge edge_data,
              edge_free_list := next_free_edge }, free_edge)
  | none =>
    ({ r with edges := r.edges ++ [edge_data] }, r.edges.length)

/-- The `Edges` iterator: the list of edge indices obtained by chasing
`next_edges[direction]` from a first edge. -/
def edgeChain (r : Relation) (direction : Direction) :
    Nat → Option Nat → Option (List Nat)
  | _, none => some []
  | 0, some _ => none
  | fuel + 1, some e =>
    (r.edgeChain direction fuel ((r.edge e).next_edges.get direction)).map
      (fun rest => e :: rest)

/-- `Relation::edges(node, direction)`, collected to a list. -/
def edgesOf (r : Relation) (n : Nat) (direction : Direction) (fuel : Nat) :
    Option (List Nat) :=
  r.edgeChain direction fuel ((r.node n).first_edges.get direction)

/-- `Relation::successors_internal`. -/
def successors_internal (r : Relation) (n : Nat) (fuel : Nat) : Option (List Nat) :=
  (r.edgesOf n .Outgoing fuel).map (List.map fun e => (r.edge e).nodes.outgoing)

/-- `Relation::predecessors_internal`. -/
def predecessors_internal (r : Relation) (n : Nat) (fuel : Nat) : Option (List Nat) :=
  (r.edgesOf n .Incoming fuel).map (List.map fun e => (r.edge e).nodes.incoming)

/-- `Relation::add_edge_internal`.  The duplicate test is embedded
exactly as written in the source: `.any(|s| s == predecessor)` — the
scan compares each successor of `predecessor` against `predecessor`
itself, not against `successor`. -/
def add_edge_internal (r : Relation) (predecessor successor : Nat) (fuel : Nat) :
    Option (Bool × Relation) := do
  let succs ← r.successors_internal predecessor fuel
  if succs.any (fun s => s == predecessor) then
    return (false, r)
  else
    let next_incoming := (r.node successor).first_edges.incoming
    let next_outgoing := (r.node predecessor).first_edges.outgoing
    let ae := r.alloc_edge ⟨⟨predecessor, successor⟩, ⟨next_incoming, next_outgoing⟩⟩
    let r1 := ae.1
    let edge_index := ae.2
    let r2 := r1.setNode successor
      ⟨(r1.node successor).first_edges.set .Incoming (some edge_index)⟩
    let r3 := r2.setNode predecessor
      ⟨(r2.node predecessor).first_edges.set .Outgoing (some edge_index)⟩
    return (true, r3)

/-- `Relation::add_edge` (`into_node` is the identity on indices). -/
def add_edge (r : Relation) (predecessor successor : Nat) (fuel : Nat) :
    Option (Bool × Relation) :=
  r.add_edge_internal predecessor successor fuel

/-- `Relation::count_edges_saturating`: walk at most two list steps. -/
def count_edges_saturating (r : Relation) (n : Nat) (direction : Direction) : Nat :=
  match (r.node n).first_edges.get direction with
  | none => 0
  | some e =>
    match (r.edge e).next_edges.get direction with
    | none => 1
    | some _ => 2

/-- The `loop` inside `Relation::unlink_edge`. -/
def unlinkLoop (r : Relation) (direction : Direction) (e : Nat)
    (next_edge : Option Nat) : Nat → Nat → Option Relation
  | _, 0 => none
  | cur_edge, fuel + 1 =>
    let edge_data := r.edge cur_edge
    match edge_data.next_edges.get direction with
    | none => none
    | some cur2 =>
      if cur2 = e then
        some (r.setEdge cur_edge
          ⟨edge_data.nodes, edge_data.next_edges.set direction next_edge⟩)
      else r.unlinkLoop direction e next_edge cur2 fuel

/-- `Relation::unlink_edge`. -/
def unlink_edge (r : Relation) (n : Nat) (direction : Direction)
    (e : Nat) (next_edge : Option Nat) (fuel : Nat) : Option Relation :=
  match (r.node n).first_edges.get direction with
  | none => none
  | some cur_edge =>
    if cur_edge = e then
      some (r.setNode n ⟨(r.node n).first_edges.set direction next_edge⟩)
    else r.unlinkLoop direction e next_edge cur_edge fuel

/-- The `while let` loop of `Relation::move_edges_to_free_list`. -/
def moveLoop (direction : Direction) :
    Nat → Relation → Option Nat → Option Nat → Option (Relation × Option Nat)
  | _, r, none, next_free_list_edge => some (r, next_free_list_edge)
  | 0, _, some _, _ => none
  | fuel + 1, r, some edge_to_remove, next_free_list_edge =>
    let edge_data := r.edge edge_to_remove
    let next_edge_to_remove := edge_data.next_edges.get direction
    let other_node := edge_data.nodes.get direction
    let other_next_edge := edge_data.next_edges.get direction.invert
    let r1 := r.setEdge edge_to_remove
      ⟨edge_data.nodes, edge_data.next_edges.set .Outgoing next_free_list_edge⟩
    match r1.unlink_edge other_node direction.invert edge_to_remove other_next_edge fuel with
    | none => none
    | some r2 => moveLoop direction fuel r2 next_edge_to_remove (some edge_to_remove)

/-- `Relation::move_edges_to_free_list`. -/
def move_edges_to_free_list (r : Relation) (n : Nat) (direction : Direction)
    (fuel : Nat) : Option Relation := do
  let p ← moveLoop direction fuel r ((r.node n).first_edges.get direction)
    r.edge_free_list
  let r1 := { p.1 with edge_free_list := p.2 }
  return r1.setNode n ⟨(r1.node n).first_edges.set direction none⟩

/-- `Relation::move_only_outgoing_edge_to_free_list`.  As in the
source, the edge is unlinked from the successor node (direction
`Incoming`) but the replacement link passed is the edge data field
`next_edges.outgoing()`. -/
def move_only_outgoing_edge_to_free_list (r : Relation) (n : Nat) (fuel : Nat) :
    Option (Relation × Nat) := do
  match (r.node n).first_edges.outgoing with
  | none => none
  | some edge_to_remove =>
    let r1 := r.setNode n ⟨(r.node n).first_edges.set .Outgoing none⟩
    let edge_free_list := r1.edge_free_list
    let edge_data := r1.edge edge_to_remove
    let successor_node := edge_data.nodes.outgoing
    let successor_next := edge_data.next_edges.outgoing
    let r2 := r1.setEdge edge_to_remove
      ⟨edge_data.nodes, edge_data.next_edges.set .Outgoing edge_free_list⟩
    let r3 ← r2.unlink_edge successor_node .Incoming edge_to_remove successor_next fuel
    return ({ r3 with edge_free_list := some edge_to_remove }, successor_node)

/-- `Relation::move_only_incoming_edge_to_free_list`. -/
def move_only_incoming_edge_to_free_list (r : Relation) (n : Nat) (fuel : Nat) :
    Option (Relation × Nat) := do
  match (r.node n).first_edges.incoming with
  | none => none
  | some edge_to_remove =>
    let r1 := r.setNode n ⟨(r.node n).first_edges.set .Incoming none⟩
    let edge_free_list := r1.edge_free_list
    let edge_data := r1.edge edge_to_remove
    let predecessor_node := edge_data.nodes.incoming
    let predecessor_next := edge_data.next_edges.outgoing
    let r2 := r1.setEdge edge_to_remove
      ⟨edge_data.nodes, edge_data.next_edges.set .Outgoing edge_free_list⟩
    let r3 ← r2.unlink_edge predecessor_node .Outgoing edge_to_remove predecessor_next fuel
    return ({ r3 with edge_free_list := some edge_to_remove }, predecessor_node)

/-- The `while let` loop of `Relation::redirect_incoming_edges`. -/
def redirectIncomingLoop (successor : Nat) :
    Nat → Relation → Option Nat → Option Relation
  | _, r, none => some r
  | 0, _, some _ => none
  | fuel + 1, r, some redirected_edge_ind =>
    let first_incoming_edge_of_successor := (r.node successor).first_edges.incoming
    let edge_data := r.edge redirected_edge_ind
    let tmp := edge_data.next_edges.incoming
    let r1 := r.setEdge redirected_edge_ind
      ⟨edge_data.nodes.set .Outgoing successor,
        edge_data.next_edges.set .Incoming first_incoming_edge_of_successor⟩
    let r2 := r1.setNode successor
      ⟨(r1.node successor).first_edges.set .Incoming (some redirected_edge_ind)⟩
    redirectIncomingLoop successor fuel r2 tmp

/-- `Relation::redirect_incoming_edges`. -/
def redirect_incoming_edges (r : Relation) (n successor : Nat) (fuel : Nat) :
    Option Relation := do
  let r1 ← redirectIncomingLoop successor fuel r ((r.node n).first_edges.incoming)
  return r1.setNode n ⟨(r1.node n).first_edges.set .Incoming none⟩

/-- The `while let` loop of `Relation::redirect_outgoing_edges`. -/
def redirectOutgoingLoop (predecessor : Nat) :
    Nat → Relation → Option Nat → Option Relation
  | _, r, none => some r
  | 0, _, some _ => none
  | fuel + 1, r, some redirected_edge_ind =>
    let first_outgoing_edge_of_predecessor := (r.node predecessor).first_edges.outgoing
    let edge_data := r.edge redirected_edge_ind
    let tmp := edge_data.next_edges.outgoing
    let r1 := r.setEdge redirected_edge_ind
      ⟨edge_data.nodes.set .Incoming predecessor,
        edge_data.next_edges.set .Outgoing first_outgoing_edge_of_predecessor⟩
    let r2 := r1.setNode predecessor
      ⟨(r1.node predecessor).first_edges.set .Outgoing (some redirected_edge_ind)⟩
    redirectOutgoingLoop predecessor fuel r2 tmp

/-- `Relation::redirect_outgoing_edges`. -/
def redirect_outgoing_edges (r : Relation) (n predecessor : Nat) (fuel : Nat) :
    Option Relation := do
  let r1 ← redirectOutgoingLoop predecessor fuel r ((r.node n).first_edges.outgoing)
  return r1.setNode n ⟨(r1.node n).first_edges.set .Outgoing none⟩

/-- The nested `for s in successors { for &p in predecessors }` loop of
`redirect_all_edges`, as a fold of `add_edge_internal` over pairs. -/
def addAll (fuel : Nat) : Relation → List (Nat × Nat) → Option Relation
  | r, [] => some r
  | r, (p, s) :: rest => do
    let b ← r.add_edge_internal p s fuel
    addAll fuel b.2 rest

/-- `Relation::redirect_all_edges`. -/
def redirect_all_edges (r : Relation) (n : Nat) (fuel : Nat) : Option Relation := do
  let successors ← r.successors_internal n fuel
  let predecessors ← r.predecessors_internal n fuel
  let r1 ← r.move_edges_to_free_list n .Outgoing fuel
  let r2 ← r1.move_edges_to_free_list n .Incoming fuel
  addAll fuel r2 (successors.flatMap fun s => predecessors.map fun p => (p, s))

/-- `Relation::remove_edges`: the four-way dispatch on saturating
in/out degree counts. -/
def remove_edges (r : Relation) (n : Nat) (fuel : Nat) : Option Relation :=
  let incoming_count := r.count_edges_saturating n .Incoming
  if incoming_count = 0 then
    r.move_edges_to_free_list n .Outgoing fuel
  else
    let outgoing_count := r.count_edges_saturating n .Outgoing
    if outgoing_count = 0 then
      r.move_edges_to_free_list n .Incoming fuel
    else if outgoing_count = 1 then do
      let p ← r.move_only_outgoing_edge_to_free_list n fuel
      p.1.redirect_incoming_edges n p.2 fuel
    else if incoming_count = 1 then do
      let p ← r.move_only_incoming_edge_to_free_list n fuel
      p.1.redirect_outgoing_edges n p.2 fuel
    else
      r.redirect_all_edges n fuel

end Relation

end LR

/-! ## Claims C2, C3, C5, C8: concrete failing runs of the list form

`buildRelation` replays a sequence of `add_edge` calls from `new`;
the fuel `100` is ample for these graphs (every run below evaluates to
`some`). -/

/-- Build a list-form relation by successive `add_edge` calls. -/
def buildRelation (n : Nat) (es : List (Nat × Nat)) : Option LR.Relation :=
  es.foldlM
    (fun r pq => do
      let b ← LR.Relation.add_edge r pq.1 pq.2 100
      pure b.2)
    (LR.Relation.new n)

/-- Two identical `add_edge(0, 1)` calls on a fresh two-node relation. -/
def ex3run : Option (Bool × Bool × LR.Relation) := do
  let b1 ← (LR.Relation.new 2).add_edge 0 1 100
  let b2 ← b1.2.add_edge 0 1 100
  return (b1.1, b2.1, b2.2)

/-- C3, counterexample: the duplicate check of `add_edge_internal`
compares each successor of `p` against `p` itself (`s == predecessor`),
not against `s`, so adding the edge `(0, 1)` twice returns `true` both
times and allocates two edge slots — the claim (and the function's own
doc comment, "Returns true if the edge was added, and false if it
already exists") requires the second call to return `false` and leave
the relation unchanged. -/
theorem C3_counterexample_duplicate_add :
    ex3run.map (fun t => (t.1, t.2.1, t.2.2.edges.length))
      = some (true, true, 2) := by
  decide

/-- The graph `{0→2, 1→2, 2→3, 2→4, 0→0}` on five nodes (the
self-loop added last). -/
def ex2pre : Option LR.Relation :=
  buildRelation 5 [(0, 2), (1, 2), (2, 3), (2, 4), (0, 0)]

/-- The same graph after `remove_edges(2)`. -/
def ex2post : Option LR.Relation :=
  ex2pre.bind fun r => r.remove_edges 2 100

/-- C2, counterexample: before `remove_edges(2)` the edges `0→2` and
`2→3` give a path `0→2→3` through `2` only (`0, 3 ≠ 2`), yet
afterwards there is no direct edge `0→3`: in `redirect_all_edges` the
call `add_edge_internal(0, 3)` is wrongly rejected because node `0`
has a self-loop and the duplicate scan tests `s == predecessor`. -/
theorem C2_counterexample_transitivity_lost :
    (ex2pre.bind fun r => r.successors_internal 0 100).map
        (fun l => decide (2 ∈ l)) = some true ∧
    (ex2pre.bind fun r => r.successors_internal 2 100).map
        (fun l => decide (3 ∈ l)) = some true ∧
    (ex2post.bind fun r => r.successors_internal 0 100).map
        (fun l => decide (3 ∈ l)) = some false := by
  refine ⟨?_, ?_, ?_⟩ <;> decide

namespace LR.Relation

/-- All edge slots seen from the outgoing lists of all nodes, the
incoming lists of all nodes, and the free list. -/
def activeAndFree (r : Relation) (fuel : Nat) :
    Option (List Nat × List Nat × List Nat) := do
  let outs ← (List.range r.nodes.length).mapM fun n => r.edgesOf n .Outgoing fuel
  let ins ← (List.range r.nodes.length).mapM fun n => r.edgesOf n .Incoming fuel
  let free ← r.edgeChain .Outgoing fuel r.edge_free_list
  return (outs.flatten, ins.flatten, free)

/-- The slot partition claimed by C5, as a boolean check: every
allocated edge slot is either active — in exactly one outgoing list
and exactly one incoming list, and not on the free list — or on the
free list exactly once and in no node's lists.  `false` also when the
chain walks do not finish within `fuel`. -/
def slotOk (r : Relation) (fuel : Nat) : Bool :=
  match r.activeAndFree fuel with
  | none => false
  | some (outs, ins, free) =>
    (List.range r.edges.length).all fun e =>
      ((outs.count e == 1) && (ins.count e == 1) && (free.count e == 0)) ||
      ((outs.count e == 0) && (ins.count e == 0) && (free.count e == 1))

end LR.Relation

/-- The graph `{2→3, 0→1, 1→3}` (added in that order) after
`remove_edges(1)`. -/
def ex5post : Option LR.Relation :=
  (buildRelation 4 [(2, 3), (0, 1), (1, 3)]).bind fun r => r.remove_edges 1 100

/-- C5, counterexample: removing node `1` goes through
`move_only_outgoing_edge_to_free_list`, which unlinks edge `2` from
node `3`'s incoming list but passes the edge's `next_edges.outgoing()`
(`None`) instead of its next *incoming* link (edge `0`), truncating
that list.  Afterwards edge slot `0` (the edge `2→3`) still sits in
node `2`'s outgoing list but is in no node's incoming list and not on
the free list — so it is neither active nor free, and the claimed
exactly-once enumeration fails. -/
theorem C5_counterexample_slot_partition :
    ex5post.map (fun r => r.slotOk 100) = some false ∧
    (ex5post.bind fun r => r.edgesOf 2 LR.Direction.Outgoing 100).map
        (fun l => l.count 0) = some 1 ∧
    (ex5post.map fun r =>
      ((List.range r.nodes.length).map fun n =>
        ((r.edgesOf n LR.Direction.Incoming 100).getD []).count 0).sum) = some 0 ∧
    (ex5post.bind fun r => r.edgeChain LR.Direction.Outgoing 100 r.edge_free_list).map
        (fun l => l.count 0) = some 0 := by
  refine ⟨?_, ?_, ?_, ?_⟩ <;> decide

/-- The graph `{0→2, 1→2, 2→3, 2→4, 2→2}` after one `remove_edges(2)`. -/
def ex8once : Option LR.Relation :=
  (buildRelation 5 [(0, 2), (1, 2), (2, 3), (2, 4), (2, 2)]).bind fun r =>
    r.remove_edges 2 100

/-- The same after a second `remove_edges(2)`. -/
def ex8twice : Option LR.Relation :=
  ex8once.bind fun r => r.remove_edges 2 100

/-- C8, counterexample: with a self-loop on node `2` and ≥2 edges on
both sides, `redirect_all_edges` collects `2` among its own
predecessors and successors and re-adds edges incident to `2`
(including the self-loop `2→2`), so the first call does not leave `2`
edgeless; the second call then frees the re-added self-loop and
produces a different state, refuting `remove_edges; remove_edges =
remove_edges`. -/
theorem C8_counterexample_not_idempotent :
    ex8once.isSome = true ∧ ex8twice.isSome = true ∧ ex8twice ≠ ex8once ∧
    (ex8once.bind fun r => r.successors_internal 2 100) = some [2] := by
  refine ⟨rfl, rfl, ?_, rfl⟩
  decide

/-! ## The matrix-backed relation (`matrix-relation/src/lib.rs`)

`find_live_targets` runs a worklist loop (`queue.pop()` /
`queue.push(..)` on a `Vec`, i.e. a stack; embedded as a list whose
head is the top).  The loop takes fuel, one unit per `while` iteration;
the `assert!` at the head of the loop body is embedded as a guard that
returns `none` where the Rust code would panic. -/

namespace MR

/-- `Relation<R> { adjacency: SparseBitMatrix<R, R> }`. -/
structure Relation where
  adjacency : SparseBitMatrix
deriving DecidableEq

/-- The memoization table `live_targets: FxHashMap<R, SparseBitSet<R>>`
(only keyed lookup and insertion are used, so an association list is an
exact model). -/
def Memo := List (Nat × SparseBitSet)

/-- `FxHashMap::get`-style lookup in the memo table. -/
def memoGet : Memo → Nat → Option SparseBitSet
  | [], _ => none
  | (k, v) :: rest, k0 => if k0 = k then some v else memoGet rest k0

namespace Relation

/-- `Relation::new`. -/
def new (rows : Nat) : Relation := ⟨SparseBitMatrix.new rows⟩

/-- `Relation::add_edge`. -/
def add_edge (r : Relation) (row1 row2 : Nat) : Bool × Relation :=
  let p := r.adjacency.add row1 row2
  (p.1, ⟨p.2⟩)

end Relation

/-- The inner `for next_chunk in next_nodes.chunks()` loop of
`find_live_targets`, for one dead node `x`: union each chunk of
`row(x)` into the result and push the newly-added-and-dead bits. -/
def fltProcessBit (adj : SparseBitMatrix) (dead : SparseBitSet) (x : Nat)
    (st : SparseBitSet × List SparseChunk) : SparseBitSet × List SparseChunk :=
  (adj.row x).chunks.foldl
    (fun st next_chunk =>
      let p := st.1.insert_chunk next_chunk
      let new_dead_targets := dead.contains_chunk p.1
      (p.2, new_dead_targets :: st.2))
    st

/-- The `while let Some(dead_targets) = queue.pop()` loop of
`find_live_targets`. -/
def fltLoop (adj : SparseBitMatrix) (dead : SparseBitSet) :
    Nat → SparseBitSet → List SparseChunk → Option SparseBitSet
  | _, result, [] => some result
  | 0, _, _ :: _ => none
  | fuel + 1, result, c :: queue =>
    if (dead.contains_chunk c).bits_eq c then
      let st := c.toList.foldl (fun st x => fltProcessBit adj dead x st) (result, queue)
      fltLoop adj dead fuel st.1 st.2
    else none

/-- `Relation::find_live_targets`: the worklist loop from the seeded
result `{dead_target}`, then subtraction of the dead chunks. -/
def Relation.find_live_targets (r : Relation) (dead_target : Nat)
    (dead_nodes : SparseBitSet) (fuel : Nat) : Option SparseBitSet :=
  (fltLoop r.adjacency dead_nodes fuel
      (SparseBitSet.new.insert_chunk (SparseChunk.one dead_target)).2
      [SparseChunk.one dead_target]).map
    (fun resLoop =>
      dead_nodes.chunks.foldl (fun acc c => (acc.remove_chunk c).2) resLoop)

/-- One `dead_target` of the `for dead_target in dead_targets.iter()`
loop of `remove_dead_nodes`: memoized `find_live_targets`, then union
the live target set into the row of `live_source`. -/
def rdnBit (live_source : Nat) (dead_nodes : SparseBitSet) (fuel : Nat)
    (st : Relation × Memo) (dead_target : Nat) : Option (Relation × Memo) :=
  let pOpt : Option (SparseBitSet × Memo) :=
    match memoGet st.2 dead_target with
    | some v => some (v, st.2)
    | none =>
      (st.1.find_live_targets dead_target dead_nodes fuel).map
        (fun v => (v, (dead_target, v) :: st.2))
  match pOpt with
  | none => none
  | some p =>
    some (⟨st.1.adjacency.row_set live_source
        ((st.1.adjacency.row live_source).insert_chunks p.1).2⟩, p.2)

/-- One `dead_chunk` of the outer chunk loop of `remove_dead_nodes`. -/
def rdnChunk (live_source : Nat) (dead_nodes : SparseBitSet) (fuel : Nat)
    (st : Relation × Memo) (dead_chunk : SparseChunk) : Option (Relation × Memo) :=
  let dead_targets := (st.1.adjacency.row live_source).contains_chunk dead_chunk
  if !dead_targets.any then
    some st
  else
    match dead_targets.toList.foldlM (rdnBit live_source dead_nodes fuel) st with
    | none => none
    | some st2 =>
      some (⟨st2.1.adjacency.row_set live_source
          ((st2.1.adjacency.row live_source).remove_chunk dead_chunk).2⟩, st2.2)

/-- One `live_source` of the outer loop of `remove_dead_nodes`. -/
def rdnSource (dead_nodes : SparseBitSet) (fuel : Nat)
    (st : Relation × Memo) (live_source : Nat) : Option (Relation × Memo) :=
  dead_nodes.chunks.foldlM (rdnChunk live_source dead_nodes fuel) st

/-- `Relation::remove_dead_nodes`. -/
def Relation.remove_dead_nodes (r : Relation) (live_nodes : List Nat)
    (dead_nodes : SparseBitSet) (fuel : Nat) : Option Relation :=
  match live_nodes.foldlM (rdnSource dead_nodes fuel) (r, ([] : Memo)) with
  | none => none
  | some st =>
    some ⟨dead_nodes.toList.foldl
      (fun adj dead_node => adj.row_set dead_node SparseBitSet.new) st.1.adjacency⟩

/-- A path `a → d1 → … → dk → b` (`k ≥ 0`) in the adjacency matrix
whose interior nodes `d1 … dk` are all dead. -/
inductive DeadPath (adj : SparseBitMatrix) (dead : SparseBitSet) : Nat → Nat → Prop where
  | direct {a b : Nat} : (adj.row a).contains b = true → DeadPath adj dead a b
  | step {a d b : Nat} : (adj.row a).contains d = true → dead.contains d = true →
      DeadPath adj dead d b → DeadPath adj dead a b

end MR

/-! ### Chunk-membership lemmas for the worklist analysis -/

namespace SparseChunk

theorem memb_mk_and (k b1 b2 : Nat) (y : Nat) :
    (SparseChunk.mk k (b1 &&& b2)).memb y
      = ((SparseChunk.mk k b1).memb y && (SparseChunk.mk k b2).memb y) := by
  simp only [memb, Nat.testBit_and]
  cases hd : (decide (k = y / wordBits)) <;>
    cases b1.testBit (y % wordBits) <;> cases b2.testBit (y % wordBits) <;> simp [hd]

end SparseChunk

namespace SparseBitSet

theorem contains_eq_testBit (s : SparseBitSet) (y : Nat) :
    s.contains y = (s.word (y / wordBits)).testBit (y % wordBits) := by
  rw [Bool.eq_iff_iff]
  exact contains_iff s y

theorem contains_new (y : Nat) : (new : SparseBitSet).contains y = false := by
  rw [contains_eq_testBit]
  have hz : (new : SparseBitSet).word (y / wordBits) = 0 := rfl
  rw [hz, Nat.zero_testBit]

/-- `contains_chunk` keeps exactly the members of the chunk already in
the set. -/
theorem memb_contains_chunk (s : SparseBitSet) (c : SparseChunk) (y : Nat) :
    (s.contains_chunk c).memb y = (c.memb y && s.contains y) := by
  unfold contains_chunk
  by_cases hk : c.key = y / wordBits
  · rw [SparseChunk.memb_mk_and]
    have hw : (SparseChunk.mk c.key (s.word c.key)).memb y = s.contains y := by
      rw [contains_eq_testBit]
      simp [SparseChunk.memb, hk]
    have hc : (SparseChunk.mk c.key c.bits).memb y = c.memb y := rfl
    rw [hw, hc]
    cases c.memb y <;> cases s.contains y <;> simp
  · have h1 : c.memb y = false := by simp [SparseChunk.memb, hk]
    have h2 : (⟨c.key, s.word c.key &&& c.bits⟩ : SparseChunk).memb y = false := by
      simp [SparseChunk.memb, hk]
    rw [h1, h2]
    rfl

/-- The delta of `insert_chunk` holds exactly the chunk members that
were absent. -/
theorem memb_delta_insert_chunk (s : SparseBitSet) (c : SparseChunk) (y : Nat) :
    (s.insert_chunk c).1.memb y = (c.memb y && !(s.contains y)) := by
  rw [delta_insert_chunk]
  by_cases hk : c.key = y / wordBits
  · have hmemb : (⟨c.key, wdiff c.bits (s.word c.key)⟩ : SparseChunk).memb y
        = (decide (c.key = y / wordBits) &&
            (c.bits.testBit (y % wordBits) && !((s.word c.key).testBit (y % wordBits)))) := by
      simp [SparseChunk.memb, testBit_wdiff]
    rw [hmemb]
    have hcont : s.contains y = (s.word c.key).testBit (y % wordBits) := by
      rw [contains_eq_testBit, ← hk]
    rw [hcont]
    simp only [SparseChunk.memb]
    cases hd : (decide (c.key = y / wordBits)) <;>
      cases c.bits.testBit (y % wordBits) <;>
        cases (s.word c.key).testBit (y % wordBits) <;> simp [hd]
  · have h1 : c.memb y = false := by simp [SparseChunk.memb, hk]
    have h2 : (⟨c.key, wdiff c.bits (s.word c.key)⟩ : SparseChunk).memb y = false := by
      simp [SparseChunk.memb, hk]
    rw [h1, h2]
    rfl

/-- Members of a well-formed set, as enumerated by `iter`. -/
theorem mem_toList_iff (s : SparseBitSet) (y : Nat) (hwf : s.WF) :
    y ∈ s.toList ↔ s.contains y = true := by
  unfold toList
  rw [List.mem_flatten]
  constructor
  · rintro ⟨l, hl, hy⟩
    rw [List.mem_map] at hl
    obtain ⟨c, hc, rfl⟩ := hl
    exact (contains_iff_exists_chunk s y hwf.1).mpr ⟨c, hc, (SparseChunk.mem_toList c y).mp hy⟩
  · intro h
    obtain ⟨c, hc, hm⟩ := (contains_iff_exists_chunk s y hwf.1).mp h
    exact ⟨c.toList, List.mem_map.mpr ⟨c, hc, rfl⟩, (SparseChunk.mem_toList c y).mpr hm⟩

/-- Folding `remove_chunk` over a chunk list removes exactly the
members of those chunks. -/
theorem foldl_remove_contains (cs : List SparseChunk) (s : SparseBitSet)
    (hwf : s.WF) (y : Nat) :
    ((cs.foldl (fun acc c => (acc.remove_chunk c).2) s).contains y
      = (s.contains y && !(cs.any fun c => c.memb y))) ∧
    (cs.foldl (fun acc c => (acc.remove_chunk c).2) s).WF := by
  induction cs generalizing s with
  | nil => exact ⟨by simp, hwf⟩
  | cons c cs ih =>
    simp only [List.foldl_cons, List.any_cons]
    obtain ⟨h1, h2⟩ := ih (s.remove_chunk c).2 (WF_remove_chunk c hwf)
    refine ⟨?_, h2⟩
    rw [h1, contains_remove_chunk _ _ _ hwf.1]
    cases s.contains y <;> cases c.memb y <;> simp

end SparseBitSet

namespace MR

/-- Appending an edge at the end of a dead-interior path. -/
theorem DeadPath.snoc {adj : SparseBitMatrix} {dead : SparseBitSet} {a x y : Nat}
    (hp : DeadPath adj dead a x) (hx : dead.contains x = true)
    (he : (adj.row x).contains y = true) : DeadPath adj dead a y := by
  induction hp with
  | direct h => exact DeadPath.step h hx (DeadPath.direct he)
  | step h hd _ ih => exact DeadPath.step h hd (ih hx he)

/-- A dead-interior path starting at a dead node reads only dead rows,
so it transfers between matrices that agree on dead rows. -/
theorem DeadPath.congr {adj adj2 : SparseBitMatrix} {dead : SparseBitSet} {a b : Nat}
    (hrows : ∀ z, dead.contains z = true → adj2.row z = adj.row z)
    (hp : DeadPath adj dead a b) (ha : dead.contains a = true) :
    DeadPath adj2 dead a b := by
  induction hp with
  | direct h =>
    exact DeadPath.direct (by rw [hrows _ ha]; exact h)
  | step h hd _ ih =>
    exact DeadPath.step (by rw [hrows _ ha]; exact h) hd (ih hd)

/-- First-step case analysis of a dead-interior path. -/
theorem DeadPath.cases_iff (adj : SparseBitMatrix) (dead : SparseBitSet) (a b : Nat) :
    DeadPath adj dead a b ↔
      (adj.row a).contains b = true ∨
      ∃ d, (adj.row a).contains d = true ∧ dead.contains d = true ∧
        DeadPath adj dead d b := by
  constructor
  · intro h
    cases h with
    | direct h => exact Or.inl h
    | step h hd hp => exact Or.inr ⟨_, h, hd, hp⟩
  · rintro (h | ⟨d, h, hd, hp⟩)
    · exact DeadPath.direct h
    · exact DeadPath.step h hd hp

end MR

namespace MR

/-- The bits of a chunk returned by `contains_chunk` are a subset of
the stored word at its key. -/
theorem contains_chunk_word_eq (s : SparseBitSet) (c : SparseChunk) :
    s.word (s.contains_chunk c).key &&& (s.contains_chunk c).bits
      = (s.contains_chunk c).bits := by
  show s.word c.key &&& (s.word c.key &&& c.bits) = s.word c.key &&& c.bits
  rw [← Nat.and_assoc, Nat.and_self]

/-- Members of a chunk whose bits lie inside the stored word of `dead`
at its key are members of `dead`. -/
theorem memb_dead_of_word_eq {dead : SparseBitSet} {c : SparseChunk}
    (h : dead.word c.key &&& c.bits = c.bits) {y : Nat} (hm : c.memb y = true) :
    dead.contains y = true := by
  rw [SparseChunk.memb, Bool.and_eq_true, decide_eq_true_eq] at hm
  rw [SparseBitSet.contains_eq_testBit, ← hm.1]
  have := congrArg (fun w => w.testBit (y % wordBits)) h
  simp only [Nat.testBit_and] at this
  rw [hm.2, Bool.and_true] at this
  exact this

/-- The chunk pushed for one inserted chunk holds exactly the
dead-and-newly-added members of that chunk. -/
theorem memb_pushed (dead s : SparseBitSet) (nc : SparseChunk) (y : Nat) :
    (dead.contains_chunk (s.insert_chunk nc).1).memb y
      = ((nc.memb y && !(s.contains y)) && dead.contains y) := by
  rw [SparseBitSet.memb_contains_chunk, SparseBitSet.memb_delta_insert_chunk]

/-- Effect of the inner `for next_chunk in next_nodes.chunks()` fold of
`find_live_targets` on the worklist state, over an arbitrary chunk
list. -/
theorem chunkFold_spec (dead : SparseBitSet) (cs : List SparseChunk)
    (hcs : ∀ c ∈ cs, c.bits < 2 ^ wordBits) :
    ∀ st st2 : SparseBitSet × List SparseChunk,
      cs.foldl (fun acc next_chunk =>
          let p := acc.1.insert_chunk next_chunk
          (p.2, dead.contains_chunk p.1 :: acc.2)) st = st2 →
    ∃ pushed : List SparseChunk,
      st2.2 = pushed ++ st.2 ∧
      (∀ y, st.1.contains y = true → st2.1.contains y = true) ∧
      (∀ y, st2.1.contains y = true →
        st.1.contains y = true ∨ ∃ c ∈ cs, c.memb y = true) ∧
      (∀ c ∈ cs, ∀ y, c.memb y = true → st2.1.contains y = true) ∧
      (∀ c ∈ pushed,
        (dead.word c.key &&& c.bits = c.bits) ∧
        (∀ y, c.memb y = true →
          dead.contains y = true ∧ st2.1.contains y = true ∧
            st.1.contains y = false)) ∧
      (∀ y, dead.contains y = true → st2.1.contains y = true →
        st.1.contains y = true ∨ ∃ c ∈ pushed, c.memb y = true) ∧
      (st.1.WF → st2.1.WF) := by
  induction cs with
  | nil =>
    intro st st2 heq
    subst heq
    exact ⟨[], rfl, fun y h => h, fun y h => Or.inl h, by simp, by simp,
      fun y _ h => Or.inl h, id⟩
  | cons c cs ih =>
    intro st st2 heq
    rw [List.foldl_cons] at heq
    set st1 : SparseBitSet × List SparseChunk :=
      ((st.1.insert_chunk c).2, dead.contains_chunk (st.1.insert_chunk c).1 :: st.2)
      with hst1
    obtain ⟨pushed, hq, hmono, hnew, hcov, hpush, hdcov, hwf⟩ :=
      ih (fun c0 h0 => hcs c0 (List.mem_cons_of_mem _ h0)) st1 st2 heq
    have hstep : ∀ y, st1.1.contains y = (st.1.contains y || c.memb y) :=
      fun y => SparseBitSet.contains_insert_chunk st.1 c y
    refine ⟨pushed ++ [dead.contains_chunk (st.1.insert_chunk c).1], ?_, ?_, ?_, ?_, ?_, ?_, ?_⟩
    · rw [hq, hst1]
      simp
    · intro y h
      apply hmono
      rw [hstep, h]
      rfl
    · intro y h
      rcases hnew y h with h1 | h1
      · rw [hstep, Bool.or_eq_true] at h1
        rcases h1 with h1 | h1
        · exact Or.inl h1
        · exact Or.inr ⟨c, List.mem_cons_self _ _, h1⟩
      · obtain ⟨c0, hc0, hm⟩ := h1
        exact Or.inr ⟨c0, List.mem_cons_of_mem _ hc0, hm⟩
    · intro c0 hc0 y hm
      rcases List.mem_cons.mp hc0 with h | h
      · subst h
        apply hmono
        rw [hstep, hm]
        simp
      · exact hcov c0 h y hm
    · intro c0 hc0
      rcases List.mem_append.mp hc0 with h | h
      · obtain ⟨h1, h2⟩ := hpush c0 h
        refine ⟨h1, fun y hm => ?_⟩
        obtain ⟨hd, hc2, hc1⟩ := h2 y hm
        refine ⟨hd, hc2, ?_⟩
        rw [Bool.eq_false_iff]
        intro habs
        rw [hstep y, habs] at hc1
        simp at hc1
      · rw [List.mem_singleton] at h
        subst h
        refine ⟨contains_chunk_word_eq _ _, fun y hm => ?_⟩
        rw [memb_pushed, Bool.and_eq_true, Bool.and_eq_true, Bool.not_eq_true'] at hm
        refine ⟨hm.2, ?_, hm.1.2⟩
        apply hmono
        rw [hstep, hm.1.1]
        simp
    · intro y hd h2
      rcases hdcov y hd h2 with h1 | h1
      · rw [hstep, Bool.or_eq_true] at h1
        rcases h1 with h1 | h1
        · exact Or.inl h1
        · by_cases hc1 : st.1.contains y = true
          · exact Or.inl hc1
          · refine Or.inr ⟨dead.contains_chunk (st.1.insert_chunk c).1,
              List.mem_append.mpr (Or.inr (List.mem_singleton.mpr rfl)), ?_⟩
            rw [memb_pushed, h1, Bool.eq_false_iff.mpr hc1, hd]
            rfl
      · obtain ⟨c0, hc0, hm⟩ := h1
        exact Or.inr ⟨c0, List.mem_append.mpr (Or.inl hc0), hm⟩
    · intro h
      exact hwf (SparseBitSet.WF_insert_chunk c h (hcs c (List.mem_cons_self _ _)))

/-- Effect of the `for dead_target in dead_targets.iter()` fold (the
whole body of one worklist iteration) on the state. -/
theorem bitFold_spec (adj : SparseBitMatrix) (dead : SparseBitSet) (hadj : adj.WF)
    (xs : List Nat) :
    ∀ st st2 : SparseBitSet × List SparseChunk,
      xs.foldl (fun acc x => fltProcessBit adj dead x acc) st = st2 →
    ∃ pushed : List SparseChunk,
      st2.2 = pushed ++ st.2 ∧
      (∀ y, st.1.contains y = true → st2.1.contains y = true) ∧
      (∀ y, st2.1.contains y = true →
        st.1.contains y = true ∨ ∃ x ∈ xs, (adj.row x).contains y = true) ∧
      (∀ x ∈ xs, ∀ y, (adj.row x).contains y = true → st2.1.contains y = true) ∧
      (∀ c ∈ pushed,
        (dead.word c.key &&& c.bits = c.bits) ∧
        (∀ y, c.memb y = true →
          dead.contains y = true ∧ st2.1.contains y = true ∧
            st.1.contains y = false)) ∧
      (∀ y, dead.contains y = true → st2.1.contains y = true →
        st.1.contains y = true ∨ ∃ c ∈ pushed, c.memb y = true) ∧
      (st.1.WF → st2.1.WF) := by
  induction xs with
  | nil =>
    intro st st2 heq
    subst heq
    exact ⟨[], rfl, fun y h => h, fun y h => Or.inl h, by simp, by simp,
      fun y _ h => Or.inl h, id⟩
  | cons x xs ih =>
    intro st st2 heq
    rw [List.foldl_cons] at heq
    obtain ⟨pushedA, hqA, hmonoA, hnewA, hcovA, hpushA, hdcovA, hwfA⟩ :=
      chunkFold_spec dead (adj.row x).chunks
        (SparseBitSet.chunks_bits_lt (SparseBitMatrix.row_WF hadj x))
        st (fltProcessBit adj dead x st) rfl
    obtain ⟨pushedB, hqB, hmonoB, hnewB, hcovB, hpushB, hdcovB, hwfB⟩ :=
      ih (fltProcessBit adj dead x st) st2 heq
    have hrow := SparseBitMatrix.row_WF hadj x
    refine ⟨pushedB ++ pushedA, ?_, ?_, ?_, ?_, ?_, ?_, ?_⟩
    · rw [hqB, hqA, List.append_assoc]
    · exact fun y h => hmonoB y (hmonoA y h)
    · intro y h
      rcases hnewB y h with h1 | h1
      · rcases hnewA y h1 with h2 | h2
        · exact Or.inl h2
        · obtain ⟨c0, hc0, hm⟩ := h2
          refine Or.inr ⟨x, List.mem_cons_self _ _, ?_⟩
          exact (SparseBitSet.contains_iff_exists_chunk _ _ hrow.1).mpr ⟨c0, hc0, hm⟩
      · obtain ⟨x0, hx0, hm⟩ := h1
        exact Or.inr ⟨x0, List.mem_cons_of_mem _ hx0, hm⟩
    · intro x0 hx0 y hm
      rcases List.mem_cons.mp hx0 with h | h
      · subst h
        obtain ⟨c0, hc0, hmm⟩ :=
          (SparseBitSet.contains_iff_exists_chunk _ _ hrow.1).mp hm
        exact hmonoB y (hcovA c0 hc0 y hmm)
      · exact hcovB x0 h y hm
    · intro c0 hc0
      rcases List.mem_append.mp hc0 with h | h
      · obtain ⟨h1, h2⟩ := hpushB c0 h
        refine ⟨h1, fun y hm => ?_⟩
        obtain ⟨hd, hc2, hc1⟩ := h2 y hm
        refine ⟨hd, hc2, ?_⟩
        rw [Bool.eq_false_iff]
        intro habs
        rw [hmonoA y habs] at hc1
        exact Bool.noConfusion hc1
      · obtain ⟨h1, h2⟩ := hpushA c0 h
        refine ⟨h1, fun y hm => ?_⟩
        obtain ⟨hd, hc2, hc1⟩ := h2 y hm
        exact ⟨hd, hmonoB y hc2, hc1⟩
    · intro y hd h2
      rcases hdcovB y hd h2 with h1 | h1
      · rcases hdcovA y hd h1 with h3 | h3
        · exact Or.inl h3
        · obtain ⟨c0, hc0, hm⟩ := h3
          exact Or.inr ⟨c0, List.mem_append.mpr (Or.inr hc0), hm⟩
      · obtain ⟨c0, hc0, hm⟩ := h1
        exact Or.inr ⟨c0, List.mem_append.mpr (Or.inl hc0), hm⟩
    · exact fun h => hwfB (hwfA h)

end MR

namespace SparseChunk

theorem memb_one (i y : Nat) : (one i).memb y = decide (y = i) := by
  simp only [one, memb, BC.testBit_singleton, wordBits]
  rw [Bool.eq_iff_iff, Bool.and_eq_true, decide_eq_true_eq, decide_eq_true_eq,
    decide_eq_true_eq]
  have hy := Nat.div_add_mod y 128
  have hi := Nat.div_add_mod i 128
  constructor
  · rintro ⟨h1, h2⟩
    omega
  · rintro rfl
    exact ⟨rfl, rfl⟩

theorem one_bits_lt (i : Nat) : (one i).bits < 2 ^ wordBits := by
  show 1 <<< (i % wordBits) < 2 ^ wordBits
  rw [Nat.shiftLeft_eq, Nat.one_mul]
  exact Nat.pow_lt_pow_right (by decide) (Nat.mod_lt _ (by decide))

end SparseChunk

namespace MR

theorem bits_eq_guard (dead : SparseBitSet) (c : SparseChunk) :
    (dead.contains_chunk c).bits_eq c = true ↔
      dead.word c.key &&& c.bits = c.bits := by
  simp [SparseChunk.bits_eq, SparseBitSet.contains_chunk]

/-- The loop invariant of `find_live_targets`' worklist. -/
def FltInv (adj : SparseBitMatrix) (dead : SparseBitSet) (start : Nat)
    (result : SparseBitSet) (queue : List SparseChunk) : Prop :=
  (∀ y, result.contains y = true → y = start ∨ DeadPath adj dead start y) ∧
  (∀ c ∈ queue, (dead.word c.key &&& c.bits = c.bits) ∧
    ∀ y, c.memb y = true → result.contains y = true) ∧
  (∀ x, result.contains x = true → dead.contains x = true →
    (∃ c ∈ queue, c.memb x = true) ∨
    (∀ y, (adj.row x).contains y = true → result.contains y = true)) ∧
  result.contains start = true ∧
  result.WF

/-- One worklist iteration preserves the invariant. -/
theorem FltInv_step (adj : SparseBitMatrix) (dead : SparseBitSet) (start : Nat)
    (hadj : adj.WF) (result : SparseBitSet) (c : SparseChunk)
    (queue : List SparseChunk)
    (hinv : FltInv adj dead start result (c :: queue)) :
    FltInv adj dead start
      (c.toList.foldl (fun st x => fltProcessBit adj dead x st) (result, queue)).1
      (c.toList.foldl (fun st x => fltProcessBit adj dead x st) (result, queue)).2 := by
  obtain ⟨i1, i2, i3, i4, i5⟩ := hinv
  obtain ⟨pushed, hq, hmono, hnew, hcov, hpush, hdcov, hwf⟩ :=
    bitFold_spec adj dead hadj c.toList (result, queue) _ rfl
  have hc := i2 c (List.mem_cons_self _ _)
  have hbits : ∀ x ∈ c.toList, result.contains x = true ∧ dead.contains x = true := by
    intro x hx
    have hm := (SparseChunk.mem_toList c x).mp hx
    exact ⟨hc.2 x hm, memb_dead_of_word_eq hc.1 hm⟩
  refine ⟨?_, ?_, ?_, ?_, ?_⟩
  · intro y h
    rcases hnew y h with h1 | h1
    · exact i1 y h1
    · obtain ⟨x, hx, hrow⟩ := h1
      obtain ⟨hxr, hxd⟩ := hbits x hx
      rcases i1 x hxr with rfl | hpath
      · exact Or.inr (DeadPath.direct hrow)
      · exact Or.inr (hpath.snoc hxd hrow)
  · intro c0 hc0
    rw [hq] at hc0
    rcases List.mem_append.mp hc0 with h | h
    · obtain ⟨h1, h2⟩ := hpush c0 h
      exact ⟨h1, fun y hm => (h2 y hm).2.1⟩
    · obtain ⟨h1, h2⟩ := i2 c0 (List.mem_cons_of_mem _ h)
      exact ⟨h1, fun y hm => hmono y (h2 y hm)⟩
  · intro x hx hxd
    by_cases hold : result.contains x = true
    · rcases i3 x hold hxd with ⟨c0, hc0, hm⟩ | hclosed
      · rcases List.mem_cons.mp hc0 with h | h
        · subst h
          refine Or.inr fun y hrow => ?_
          exact hcov x ((SparseChunk.mem_toList c0 x).mpr hm) y hrow
        · refine Or.inl ⟨c0, ?_, hm⟩
          rw [hq]
          exact List.mem_append.mpr (Or.inr h)
      · exact Or.inr fun y hrow => hmono y (hclosed y hrow)
    · rcases hdcov x hxd hx with h1 | h1
      · exact absurd h1 hold
      · obtain ⟨c0, hc0, hm⟩ := h1
        refine Or.inl ⟨c0, ?_, hm⟩
        rw [hq]
        exact List.mem_append.mpr (Or.inl hc0)
  · exact hmono start i4
  · exact hwf i5

/-- A result closed under dead-row expansion contains every target of
a dead-interior path out of any of its dead members. -/
theorem closure_complete (adj : SparseBitMatrix) (dead : SparseBitSet)
    (res : SparseBitSet)
    (hclosed : ∀ x, res.contains x = true → dead.contains x = true →
      ∀ y, (adj.row x).contains y = true → res.contains y = true) :
    ∀ a y, res.contains a = true → dead.contains a = true →
      DeadPath adj dead a y → res.contains y = true := by
  intro a y ha hd hp
  induction hp with
  | direct h =>
    exact hclosed _ ha hd _ h
  | step h hdd hp ih =>
    exact ih (hclosed _ ha hd _ h) hdd

/-- The worklist loop, run to completion from an invariant state,
computes `{start} ∪ {y | DeadPath start y}`. -/
theorem fltLoop_spec (adj : SparseBitMatrix) (dead : SparseBitSet) (start : Nat)
    (hadj : adj.WF) (hstart : dead.contains start = true) :
    ∀ fuel result queue res, FltInv adj dead start result queue →
      fltLoop adj dead fuel result queue = some res →
      (∀ y, res.contains y = true ↔ (y = start ∨ DeadPath adj dead start y)) ∧
      res.WF := by
  intro fuel
  induction fuel with
  | zero =>
    intro result queue res hinv hrun
    cases queue with
    | nil =>
      simp only [fltLoop, Option.some.injEq] at hrun
      subst hrun
      obtain ⟨i1, i2, i3, i4, i5⟩ := hinv
      refine ⟨fun y => ⟨i1 y, ?_⟩, i5⟩
      rintro (rfl | hp)
      · exact i4
      · exact closure_complete adj dead _
          (fun x hx hd y hy => by
            rcases i3 x hx hd with ⟨c0, hc0, _⟩ | h
            · cases hc0
            · exact h y hy)
          start y i4 hstart hp
    | cons c queue => simp [fltLoop] at hrun
  | succ fuel ih =>
    intro result queue res hinv hrun
    cases queue with
    | nil =>
      simp only [fltLoop, Option.some.injEq] at hrun
      subst hrun
      obtain ⟨i1, i2, i3, i4, i5⟩ := hinv
      refine ⟨fun y => ⟨i1 y, ?_⟩, i5⟩
      rintro (rfl | hp)
      · exact i4
      · exact closure_complete adj dead _
          (fun x hx hd y hy => by
            rcases i3 x hx hd with ⟨c0, hc0, _⟩ | h
            · cases hc0
            · exact h y hy)
          start y i4 hstart hp
    | cons c queue =>
      have hguard : (dead.contains_chunk c).bits_eq c = true :=
        (bits_eq_guard dead c).mpr (hinv.2.1 c (List.mem_cons_self _ _)).1
      rw [fltLoop, if_pos hguard] at hrun
      exact ih _ _ res (FltInv_step adj dead start hadj result c queue hinv) hrun

/-- Functional characterization of `find_live_targets`: on a
well-formed matrix and dead set, starting from a dead node, the result
holds exactly the non-dead nodes reachable along dead-interior
paths. -/
theorem find_live_targets_spec (r : Relation) (dead : SparseBitSet) (start : Nat)
    (fuel : Nat) (res : SparseBitSet)
    (hadj : r.adjacency.WF) (hdwf : dead.WF) (hstart : dead.contains start = true)
    (hrun : r.find_live_targets start dead fuel = some res) :
    (∀ y, res.contains y = true ↔
      (dead.contains y = false ∧ DeadPath r.adjacency dead start y)) ∧
    res.WF := by
  unfold Relation.find_live_targets at hrun
  cases hloop : fltLoop r.adjacency dead fuel
      (SparseBitSet.new.insert_chunk (SparseChunk.one start)).2
      [SparseChunk.one start] with
  | none => rw [hloop] at hrun; cases hrun
  | some resLoop =>
    rw [hloop] at hrun
    simp only [Option.map_some, Option.map_some', Option.some.injEq] at hrun
    have h0mem : ∀ y,
        ((SparseBitSet.new.insert_chunk (SparseChunk.one start)).2).contains y
          = decide (y = start) := by
      intro y
      rw [SparseBitSet.contains_insert_chunk, SparseBitSet.contains_new,
        SparseChunk.memb_one]
      rfl
    have h0wf : ((SparseBitSet.new.insert_chunk (SparseChunk.one start)).2).WF :=
      SparseBitSet.WF_insert_chunk _
        ⟨List.Pairwise.nil, fun kv h => by cases h⟩ (SparseChunk.one_bits_lt start)
    have hinv0 : FltInv r.adjacency dead start
        (SparseBitSet.new.insert_chunk (SparseChunk.one start)).2
        [SparseChunk.one start] := by
      refine ⟨?_, ?_, ?_, ?_, h0wf⟩
      · intro y h
        rw [h0mem, decide_eq_true_eq] at h
        exact Or.inl h
      · intro c hc
        rw [List.mem_singleton] at hc
        subst hc
        constructor
        · show dead.word (start / wordBits) &&& (1 <<< (start % wordBits))
            = (SparseChunk.one start).bits
          have hbits : (SparseChunk.one start).bits = 1 <<< (start % wordBits) := rfl
          rw [hbits]
          apply Nat.eq_of_testBit_eq
          intro k
          simp only [Nat.testBit_and, BC.testBit_singleton]
          by_cases hk : start % wordBits = k
          · subst hk
            rw [SparseBitSet.contains_eq_testBit] at hstart
            rw [hstart]
            simp
          · simp [hk]
        · intro y hm
          rw [SparseChunk.memb_one, decide_eq_true_eq] at hm
          subst hm
          rw [h0mem]
          simp
      · intro x hx _
        rw [h0mem, decide_eq_true_eq] at hx
        subst hx
        refine Or.inl ⟨SparseChunk.one x, List.mem_singleton.mpr rfl, ?_⟩
        rw [SparseChunk.memb_one]
        simp
      · rw [h0mem]
        simp
    obtain ⟨hloopmem, hloopwf⟩ :=
      fltLoop_spec r.adjacency dead start hadj hstart fuel _ _ resLoop hinv0 hloop
    subst hrun
    have hsub := fun y =>
      (SparseBitSet.foldl_remove_contains dead.chunks resLoop hloopwf y).1
    have hsubwf :=
      (SparseBitSet.foldl_remove_contains dead.chunks resLoop hloopwf 0).2
    constructor
    · intro y
      rw [hsub y]
      have hany : (dead.chunks.any fun c => c.memb y) = dead.contains y := by
        rw [Bool.eq_iff_iff, List.any_eq_true,
          ← SparseBitSet.contains_iff_exists_chunk _ _ hdwf.1]
      rw [hany, Bool.and_eq_true, Bool.not_eq_true', hloopmem y]
      constructor
      · rintro ⟨rfl | hp, hd⟩
        · rw [hstart] at hd
          cases hd
        · exact ⟨hd, hp⟩
      · rintro ⟨hd, hp⟩
        exact ⟨Or.inr hp, hd⟩
    · exact hsubwf

end MR

/-! ## Claim C9: termination -/

theorem countP_lt_of_witness {L : List Nat} {p q : Nat → Bool}
    (hmono : ∀ x ∈ L, q x = true → p x = true)
    {y : Nat} (hy : y ∈ L) (hpy : p y = true) (hqy : q y = false) :
    L.countP q < L.countP p := by
  induction L with
  | nil => cases hy
  | cons a L ih =>
    rw [List.countP_cons, List.countP_cons]
    rcases List.mem_cons.mp hy with h | h
    · subst h
      rw [hpy, hqy]
      have h1 : (if (false : Bool) = true then 1 else 0) = 0 := rfl
      have h2 : (if (true : Bool) = true then 1 else 0) = 1 := rfl
      rw [h1, h2]
      have hmle := List.countP_mono_left (l := L) (p := q) (q := p)
        (fun x hx => hmono x (List.mem_cons_of_mem _ hx))
      omega
    · have hle : (if q a = true then 1 else 0) ≤ (if p a = true then 1 else 0) := by
        by_cases hqa : q a = true
        · rw [if_pos hqa, if_pos (hmono a (List.mem_cons_self _ _) hqa)]
        · rw [if_neg hqa]
          split <;> omega
      have := ih (fun x hx => hmono x (List.mem_cons_of_mem _ hx)) h
      omega

namespace MR

theorem fltLoop_cons_eq (adj : SparseBitMatrix) (dead : SparseBitSet) (fuel : Nat)
    (result : SparseBitSet) (c : SparseChunk) (queue : List SparseChunk)
    (hguard : (dead.contains_chunk c).bits_eq c = true) :
    fltLoop adj dead (fuel + 1) result (c :: queue)
      = fltLoop adj dead fuel
          (c.toList.foldl (fun st x => fltProcessBit adj dead x st) (result, queue)).1
          (c.toList.foldl (fun st x => fltProcessBit adj dead x st) (result, queue)).2 := by
  rw [fltLoop, if_pos hguard]

theorem one_word_eq {dead : SparseBitSet} {start : Nat}
    (hstart : dead.contains start = true) :
    dead.word (SparseChunk.one start).key &&& (SparseChunk.one start).bits
      = (SparseChunk.one start).bits := by
  show dead.word (start / wordBits) &&& (1 <<< (start % wordBits))
    = (SparseChunk.one start).bits
  have hbits : (SparseChunk.one start).bits = 1 <<< (start % wordBits) := rfl
  rw [hbits]
  apply Nat.eq_of_testBit_eq
  intro k
  simp only [Nat.testBit_and, BC.testBit_singleton]
  by_cases hk : start % wordBits = k
  · subst hk
    rw [SparseBitSet.contains_eq_testBit] at hstart
    rw [hstart]
    simp
  · simp [hk]

/-- The worklist loop of `find_live_targets` terminates from any state
whose queue chunks lie inside the dead set: lexicographic descent on
(dead bits missing from the result, queued bit count, queue length). -/
theorem fltLoop_terminates (adj : SparseBitMatrix) (dead : SparseBitSet)
    (hadj : adj.WF) (hdwf : dead.WF) :
    ∀ (dv qv lv : Nat) (result : SparseBitSet) (queue : List SparseChunk),
      dead.toList.countP (fun x => !(result.contains x)) = dv →
      (queue.map (fun c => c.toList.length)).sum = qv →
      queue.length = lv →
      (∀ c ∈ queue, dead.word c.key &&& c.bits = c.bits) →
      ∃ fuel res, fltLoop adj dead fuel result queue = some res := by
  intro dv
  induction dv using Nat.strong_induction_on with
  | _ dv ihD =>
  intro qv
  induction qv using Nat.strong_induction_on with
  | _ qv ihQ =>
  intro lv
  induction lv using Nat.strong_induction_on with
  | _ lv ihL =>
  intro result queue hD hQ hL hq
  cases queue with
  | nil => exact ⟨0, result, rfl⟩
  | cons c rest =>
    have hguard : (dead.contains_chunk c).bits_eq c = true :=
      (bits_eq_guard dead c).mpr (hq c (List.mem_cons_self _ _))
    by_cases hce : c.toList = []
    · have hstep : (c.toList.foldl (fun st x => fltProcessBit adj dead x st)
          (result, rest)) = (result, rest) := by
        rw [hce]
        rfl
      obtain ⟨fuel0, res, hres⟩ := ihL rest.length (by simp [← hL]) result rest hD
        (by rw [← hQ]; simp [hce]) rfl
        (fun c0 h0 => hq c0 (List.mem_cons_of_mem _ h0))
      refine ⟨fuel0 + 1, res, ?_⟩
      rw [fltLoop_cons_eq adj dead fuel0 result c rest hguard, hstep]
      exact hres
    · obtain ⟨pushed, hq2, hmono, _, _, hpush, _, _⟩ :=
        bitFold_spec adj dead hadj c.toList (result, rest) _ rfl
      set st2 := c.toList.foldl (fun st x => fltProcessBit adj dead x st)
        (result, rest) with hst2
      have hD2le : dead.toList.countP (fun x => !(st2.1.contains x)) ≤ dv := by
        rw [← hD]
        apply List.countP_mono_left
        intro x _ hx
        simp only [Bool.not_eq_true'] at hx ⊢
        rw [Bool.eq_false_iff] at hx ⊢
        exact fun habs => hx (hmono x habs)
      by_cases hDlt : dead.toList.countP (fun x => !(st2.1.contains x)) < dv
      · obtain ⟨fuel0, res, hres⟩ :=
          ihD (dead.toList.countP (fun x => !(st2.1.contains x))) hDlt
            ((st2.2.map (fun c => c.toList.length)).sum) st2.2.length st2.1 st2.2
            rfl rfl rfl
            (fun c0 h0 => by
              rw [hq2] at h0
              rcases List.mem_append.mp h0 with h | h
              · exact (hpush c0 h).1
              · exact hq c0 (List.mem_cons_of_mem _ h))
        exact ⟨fuel0 + 1, res, by
          rw [fltLoop_cons_eq adj dead fuel0 result c rest hguard]
          exact hres⟩
      · have hDeq : dead.toList.countP (fun x => !(st2.1.contains x)) = dv := by
          omega
        have hpe : ∀ c0 ∈ pushed, c0.toList = [] := by
          intro c0 h0
          by_contra hne
          obtain ⟨y, hy⟩ := List.exists_mem_of_ne_nil _ hne
          have hm := (SparseChunk.mem_toList c0 y).mp hy
          obtain ⟨hyd, hy2, hy1⟩ := ((hpush c0 h0).2 y hm)
          have hstrict : dead.toList.countP (fun x => !(st2.1.contains x))
              < dead.toList.countP (fun x => !(result.contains x)) := by
            apply countP_lt_of_witness
            · intro x _ hx
              simp only [Bool.not_eq_true'] at hx ⊢
              rw [Bool.eq_false_iff] at hx ⊢
              exact fun habs => hx (hmono x habs)
            · exact (SparseBitSet.mem_toList_iff dead y hdwf).mpr hyd
            · simp [hy1]
            · simp [hy2]
          omega
        have hQ2 : (st2.2.map (fun c => c.toList.length)).sum
            = ((rest.map (fun c => c.toList.length)).sum) := by
          rw [hq2, List.map_append, List.sum_append]
          have hz : (pushed.map (fun c => c.toList.length)).sum = 0 := by
            apply List.sum_eq_zero
            intro x hx
            rw [List.mem_map] at hx
            obtain ⟨c0, hc0, rfl⟩ := hx
            rw [hpe c0 hc0]
            rfl
          rw [hz, Nat.zero_add]
        have hclen : 0 < c.toList.length := by
          cases hcl : c.toList with
          | nil => exact absurd hcl hce
          | cons a l => simp
        have hQlt : (st2.2.map (fun c => c.toList.length)).sum < qv := by
          rw [hQ2, ← hQ]
          simp only [List.map_cons, List.sum_cons]
          omega
        obtain ⟨fuel0, res, hres⟩ :=
          ihQ ((st2.2.map (fun c => c.toList.length)).sum) hQlt
            st2.2.length st2.1 st2.2 hDeq rfl rfl
            (fun c0 h0 => by
              rw [hq2] at h0
              rcases List.mem_append.mp h0 with h | h
              · exact (hpush c0 h).1
              · exact hq c0 (List.mem_cons_of_mem _ h))
        exact ⟨fuel0 + 1, res, by
          rw [fltLoop_cons_eq adj dead fuel0 result c rest hguard]
          exact hres⟩

end MR

namespace MR

/-- `find_live_targets` terminates: some fuel returns a result. -/
theorem find_live_targets_terminates (r : Relation) (dead : SparseBitSet)
    (start : Nat) (hadj : r.adjacency.WF) (hdwf : dead.WF)
    (hstart : dead.contains start = true) :
    ∃ fuel res, r.find_live_targets start dead fuel = some res := by
  obtain ⟨fuel, res, hres⟩ :=
    fltLoop_terminates r.adjacency dead hadj hdwf _ _ _
      (SparseBitSet.new.insert_chunk (SparseChunk.one start)).2
      [SparseChunk.one start] rfl rfl rfl
      (fun c hc => by
        rw [List.mem_singleton] at hc
        subst hc
        exact one_word_eq hstart)
  refine ⟨fuel, dead.chunks.foldl (fun acc c => (acc.remove_chunk c).2) res, ?_⟩
  unfold Relation.find_live_targets
  rw [hres]
  rfl

end MR

namespace LR.Relation

/-- More fuel preserves a successful `unlinkLoop`. -/
theorem unlinkLoop_mono (r : Relation) (direction : Direction) (e : Nat)
    (next_edge : Option Nat) :
    ∀ (fuel : Nat) (cur : Nat) (r2 : Relation),
      r.unlinkLoop direction e next_edge cur fuel = some r2 →
      r.unlinkLoop direction e next_edge cur (fuel + 1) = some r2 := by
  intro fuel
  induction fuel with
  | zero => intro cur r2 h; cases h
  | succ fuel ih =>
    intro cur r2 h
    cases hnext : ((r.edge cur).next_edges.get direction) with
    | none =>
      simp only [unlinkLoop, hnext] at h
      cases h
    | some cur2 =>
      simp only [unlinkLoop, hnext] at h ⊢
      by_cases hcur : cur2 = e
      · rw [if_pos hcur] at h ⊢
        exact h
      · rw [if_neg hcur] at h ⊢
        exact ih cur2 r2 h

/-- The `unlink_edge` traversal succeeds whenever the edge to unlink
occurs in the walked list. -/
theorem unlinkLoop_terminates (r : Relation) (direction : Direction) (e : Nat)
    (next_edge : Option Nat) :
    ∀ (fuel : Nat) (cur : Nat) (chain : List Nat),
      r.edgeChain direction fuel ((r.edge cur).next_edges.get direction) = some chain →
      e ∈ chain →
      ∃ r2, r.unlinkLoop direction e next_edge cur fuel = some r2 := by
  intro fuel
  induction fuel with
  | zero =>
    intro cur chain hchain he
    cases hnext : ((r.edge cur).next_edges.get direction) with
    | none =>
      rw [hnext] at hchain
      simp only [edgeChain, Option.some.injEq] at hchain
      subst hchain
      cases he
    | some c0 =>
      rw [hnext] at hchain
      simp only [edgeChain] at hchain
      cases hchain
  | succ fuel ih =>
    intro cur chain hchain he
    cases hnext : ((r.edge cur).next_edges.get direction) with
    | none =>
      rw [hnext] at hchain
      simp only [edgeChain, Option.some.injEq] at hchain
      subst hchain
      cases he
    | some cur2 =>
      rw [hnext] at hchain
      rw [edgeChain] at hchain
      cases hrest : r.edgeChain direction fuel ((r.edge cur2).next_edges.get direction) with
      | none =>
        rw [hrest] at hchain
        simp at hchain
      | some rest =>
        rw [hrest] at hchain
        simp only [Option.map_some, Option.map_some', Option.some.injEq] at hchain
        subst hchain
        simp only [unlinkLoop, hnext]
        by_cases hcur : cur2 = e
        · rw [if_pos hcur]
          exact ⟨_, rfl⟩
        · rw [if_neg hcur]
          have hmem : e ∈ rest := by
            rcases List.mem_cons.mp he with h | h
            · exact absurd h.symm hcur
            · exact h
          exact ih cur2 rest hrest hmem

theorem unlink_edge_terminates (r : Relation) (n : Nat) (direction : Direction)
    (e : Nat) (next_edge : Option Nat) (fuel : Nat) (chain : List Nat)
    (hchain : r.edgeChain direction fuel ((r.node n).first_edges.get direction)
      = some chain)
    (he : e ∈ chain) :
    ∃ r2, r.unlink_edge n direction e next_edge fuel = some r2 := by
  cases hfirst : ((r.node n).first_edges.get direction) with
  | none =>
    rw [hfirst] at hchain
    simp only [edgeChain, Option.some.injEq] at hchain
    subst hchain
    cases he
  | some c0 =>
    rw [hfirst] at hchain
    cases fuel with
    | zero => cases hchain
    | succ fuel =>
      rw [edgeChain] at hchain
      cases hrest : r.edgeChain direction fuel ((r.edge c0).next_edges.get direction) with
      | none =>
        rw [hrest] at hchain
        simp at hchain
      | some rest =>
        rw [hrest] at hchain
        simp only [Option.map_some, Option.map_some', Option.some.injEq] at hchain
        subst hchain
        simp only [unlink_edge, hfirst]
        by_cases hc0 : c0 = e
        · rw [if_pos hc0]
          exact ⟨_, rfl⟩
        · rw [if_neg hc0]
          have hmem : e ∈ rest := by
            rcases List.mem_cons.mp he with h | h
            · exact absurd h.symm hc0
            · exact h
          obtain ⟨r2, hr2⟩ := unlinkLoop_terminates r direction e next_edge fuel c0 rest hrest hmem
          exact ⟨r2, unlinkLoop_mono r direction e next_edge fuel c0 r2 hr2⟩

end LR.Relation

/-- C9: the operations terminate on inputs satisfying their
preconditions; in particular the worklist loop of `find_live_targets`
finishes for every (well-formed) adjacency matrix and dead-node set
when started on a dead node — only newly-added bits are enqueued — and
the `unlink_edge` traversal finishes whenever the edge to unlink
actually occurs in the given node's list. -/
theorem C9_operations_terminate :
    (∀ (r : MR.Relation) (dead : SparseBitSet) (start : Nat),
      r.adjacency.WF → dead.WF → dead.contains start = true →
      ∃ fuel res, r.find_live_targets start dead fuel = some res) ∧
    (∀ (r : LR.Relation) (n : Nat) (direction : LR.Direction) (e : Nat)
        (next_edge : Option Nat) (fuel : Nat) (chain : List Nat),
      r.edgeChain direction fuel ((r.node n).first_edges.get direction) = some chain →
      e ∈ chain →
      ∃ r2, r.unlink_edge n direction e next_edge fuel = some r2) :=
  ⟨fun r dead start hadj hdwf hstart =>
      MR.find_live_targets_terminates r dead start hadj hdwf hstart,
   fun r n direction e next_edge fuel chain hchain he =>
      LR.Relation.unlink_edge_terminates r n direction e next_edge fuel chain hchain he⟩

theorem C9_operations_terminate_witness :
    (∃ fuel res, (MR.Relation.new 1).find_live_targets 0 ⟨[(0, 1)]⟩ fuel = some res) ∧
    (∃ r2, (LR.Relation.mk [⟨⟨none, some 0⟩⟩, ⟨⟨some 0, none⟩⟩]
        [⟨⟨0, 1⟩, ⟨none, none⟩⟩] none).unlink_edge 0 LR.Direction.Outgoing 0 none 5
      = some r2) :=
  ⟨C9_operations_terminate.1 (MR.Relation.new 1) ⟨[(0, 1)]⟩ 0
      (by decide) (by decide) (by decide),
   C9_operations_terminate.2 _ 0 LR.Direction.Outgoing 0 none 5 [0]
      (by decide) (by decide)⟩

/-! ## Claim C1: correctness of `remove_dead_nodes` -/

namespace SparseBitSet

/-- Folding `insert_chunk` over bounded chunks preserves
well-formedness. -/
theorem foldl_insert_WF (cs : List SparseChunk)
    (hcs : ∀ c ∈ cs, c.bits < 2 ^ wordBits) :
    ∀ (b : Bool) (s : SparseBitSet), s.WF →
      ((cs.foldl (fun acc c =>
        let r := acc.2.insert_chunk c
        (acc.1 || r.1.any, r.2)) (b, s)).2).WF := by
  induction cs with
  | nil => intro b s h; exact h
  | cons c cs ih =>
    intro b s h
    rw [List.foldl_cons]
    exact ih (fun c0 h0 => hcs c0 (List.mem_cons_of_mem _ h0)) _ _
      (WF_insert_chunk c h (hcs c (List.mem_cons_self _ _)))

end SparseBitSet

namespace SparseChunk

/-- A bounded chunk is non-empty exactly when it has a member. -/
theorem any_iff_exists_memb (c : SparseChunk) (hc : c.bits < 2 ^ wordBits) :
    c.any = true ↔ ∃ y, c.memb y = true := by
  rw [any, decide_eq_true_eq]
  constructor
  · intro h
    obtain ⟨j, hj⟩ := Nat.ne_zero_implies_bit_true h
    have hjlt : j < wordBits := by
      by_contra hge
      rw [testBit_false_of_ge hc (by omega)] at hj
      exact Bool.noConfusion hj
    refine ⟨c.key * wordBits + j, ?_⟩
    simp [memb, key_mul_add_div _ _ hjlt, key_mul_add_mod _ _ hjlt, hj]
  · rintro ⟨y, hy⟩ hz
    rw [memb, hz, Nat.zero_testBit] at hy
    simp at hy

end SparseChunk

namespace SparseBitMatrix

theorem length_row_set (m : SparseBitMatrix) (r : Nat) (s : SparseBitSet) :
    (m.row_set r s).vector.length = m.vector.length := by
  simp [row_set]

theorem WF_row_set {m : SparseBitMatrix} (hm : m.WF) {r : Nat} {s : SparseBitSet}
    (hs : s.WF) : (m.row_set r s).WF := by
  intro s0 hs0
  rcases List.mem_or_eq_of_mem_set hs0 with h | h
  · exact hm s0 h
  · rw [h]
    exact hs

end SparseBitMatrix

namespace MR

variable (orig : SparseBitMatrix) (dead : SparseBitSet)

/-- Membership in `find_live_targets(d)`, phrased against the original
matrix: a live node reachable from `d` along a dead-interior path. -/
def FltMem (d y : Nat) : Prop :=
  dead.contains y = false ∧ DeadPath orig dead d y

/-- The intended content of a fully processed live row. -/
def Des (a y : Nat) : Prop :=
  ((orig.row a).contains y = true ∧ dead.contains y = false) ∨
  (∃ d, (orig.row a).contains d = true ∧ dead.contains d = true ∧ FltMem orig dead d y)

/-- A row that has reached its final, rewritten content. -/
def DesRow (a : Nat) (row : SparseBitSet) : Prop :=
  row.WF ∧ ∀ y, row.contains y = true ↔ Des orig dead a y

/-- Correctness of the memo table entries. -/
def MemoOK (memo : Memo) : Prop :=
  ∀ k v, memoGet memo k = some v →
    v.WF ∧ ∀ y, v.contains y = true ↔ FltMem orig dead k y

/-- The state invariant of the outer loops of `remove_dead_nodes`. -/
def OInv (st : Relation × Memo) : Prop :=
  (∀ x, dead.contains x = true → st.1.adjacency.row x = orig.row x) ∧
  st.1.adjacency.WF ∧
  st.1.adjacency.vector.length = orig.vector.length ∧
  MemoOK orig dead st.2 ∧
  (∀ b, st.1.adjacency.row b = orig.row b ∨ DesRow orig dead b (st.1.adjacency.row b))

end MR

namespace MR

/-- Effect of one `dead_target` step (`rdnBit`) of `remove_dead_nodes`
on the state: everything except the processed live row is untouched,
the memo stays correct, and the live row gains exactly the live
targets of `d`. -/
theorem rdnBit_spec (orig : SparseBitMatrix) (dead : SparseBitSet)
    (hdwf : dead.WF) (a : Nat) (fuel : Nat) (st : Relation × Memo) (d : Nat)
    (ha_len : a < orig.vector.length)
    (hdd : dead.contains d = true)
    (hdr : ∀ x, dead.contains x = true → st.1.adjacency.row x = orig.row x)
    (hwf : st.1.adjacency.WF)
    (hlen : st.1.adjacency.vector.length = orig.vector.length)
    (hmemo : MemoOK orig dead st.2)
    (st2 : Relation × Memo)
    (hrun : rdnBit a dead fuel st d = some st2) :
    (∀ b, b ≠ a → st2.1.adjacency.row b = st.1.adjacency.row b) ∧
    st2.1.adjacency.WF ∧
    st2.1.adjacency.vector.length = orig.vector.length ∧
    MemoOK orig dead st2.2 ∧
    (st2.1.adjacency.row a).WF ∧
    (∀ y, (st2.1.adjacency.row a).contains y = true ↔
      ((st.1.adjacency.row a).contains y = true ∨ FltMem orig dead d y)) := by
  have hrowWF : (st.1.adjacency.row a).WF := SparseBitMatrix.row_WF hwf a
  have hlt : a < st.1.adjacency.vector.length := by rw [hlen]; exact ha_len
  obtain ⟨v, memo2, hv, hvwf, hst2, hmemo2⟩ :
      ∃ v memo2,
        (∀ y, v.contains y = true ↔ FltMem orig dead d y) ∧ v.WF ∧
        st2 = (⟨st.1.adjacency.row_set a
            ((st.1.adjacency.row a).insert_chunks v).2⟩, memo2) ∧
        MemoOK orig dead memo2 := by
    unfold rdnBit at hrun
    cases hget : memoGet st.2 d with
    | some v =>
      rw [hget] at hrun
      simp only [Option.some.injEq] at hrun
      obtain ⟨hvwf, hv⟩ := hmemo d v hget
      exact ⟨v, st.2, hv, hvwf, hrun.symm, hmemo⟩
    | none =>
      rw [hget] at hrun
      cases hflt : st.1.find_live_targets d dead fuel with
      | none =>
        rw [hflt] at hrun
        cases hrun
      | some v =>
        rw [hflt] at hrun
        simp only [Option.map_some, Option.map_some', Option.some.injEq] at hrun
        obtain ⟨hvmem, hvwf⟩ :=
          find_live_targets_spec st.1 dead d fuel v hwf hdwf hdd hflt
        have hcongr : ∀ y, v.contains y = true ↔ FltMem orig dead d y := by
          intro y
          rw [hvmem y]
          unfold FltMem
          constructor
          · rintro ⟨h1, h2⟩
            exact ⟨h1, DeadPath.congr (fun z hz => (hdr z hz).symm) h2 hdd⟩
          · rintro ⟨h1, h2⟩
            exact ⟨h1, DeadPath.congr (fun z hz => hdr z hz) h2 hdd⟩
        refine ⟨v, (d, v) :: st.2, hcongr, hvwf, hrun.symm, ?_⟩
        intro k v0 hk
        by_cases hkd : k = d
        · subst hkd
          have hkv : memoGet ((k, v) :: st.2) k = some v := by
            rw [memoGet, if_pos rfl]
          rw [hkv, Option.some.injEq] at hk
          subst hk
          exact ⟨hvwf, hcongr⟩
        · rw [memoGet, if_neg hkd] at hk
          exact hmemo k v0 hk
  subst hst2
  have hrow2WF : (((st.1.adjacency.row a).insert_chunks v).2).WF := by
    unfold SparseBitSet.insert_chunks
    exact SparseBitSet.foldl_insert_WF _ (SparseBitSet.chunks_bits_lt hvwf) _ _ hrowWF
  refine ⟨?_, ?_, ?_, hmemo2, ?_, ?_⟩
  · intro b hb
    show (st.1.adjacency.row_set a ((st.1.adjacency.row a).insert_chunks v).2).row b
      = st.1.adjacency.row b
    exact SparseBitMatrix.row_row_set_ne _ _ _ _ hb
  · show (st.1.adjacency.row_set a ((st.1.adjacency.row a).insert_chunks v).2).WF
    exact SparseBitMatrix.WF_row_set hwf hrow2WF
  · show (st.1.adjacency.row_set a
      ((st.1.adjacency.row a).insert_chunks v).2).vector.length = orig.vector.length
    rw [SparseBitMatrix.length_row_set, hlen]
  · show ((st.1.adjacency.row_set a
      ((st.1.adjacency.row a).insert_chunks v).2).row a).WF
    rw [SparseBitMatrix.row_row_set_self _ _ _ hlt]
    exact hrow2WF
  · intro y
    show ((st.1.adjacency.row_set a
      ((st.1.adjacency.row a).insert_chunks v).2).row a).contains y = true ↔ _
    rw [SparseBitMatrix.row_row_set_self _ _ _ hlt]
    unfold SparseBitSet.insert_chunks
    rw [SparseBitSet.foldl_insert_contains, Bool.or_eq_true]
    constructor
    · rintro (h | h)
      · exact Or.inl h
      · rw [List.any_eq_true] at h
        obtain ⟨c, hc, hm⟩ := h
        exact Or.inr ((hv y).mp
          ((SparseBitSet.contains_iff_exists_chunk _ _ hvwf.1).mpr ⟨c, hc, hm⟩))
    · rintro (h | h)
      · exact Or.inl h
      · refine Or.inr ?_
        rw [List.any_eq_true]
        obtain ⟨c, hc, hm⟩ :=
          (SparseBitSet.contains_iff_exists_chunk _ _ hvwf.1).mp ((hv y).mpr h)
        exact ⟨c, hc, hm⟩

end MR

namespace MR

/-- Effect of the whole `for dead_target in dead_targets.iter()` fold. -/
theorem rdnBitFold_spec (orig : SparseBitMatrix) (dead : SparseBitSet)
    (hdwf : dead.WF) (a : Nat) (fuel : Nat)
    (ha_len : a < orig.vector.length) (had : dead.contains a = false) :
    ∀ (ds : List Nat) (st st2 : Relation × Memo),
      (∀ d ∈ ds, dead.contains d = true) →
      (∀ x, dead.contains x = true → st.1.adjacency.row x = orig.row x) →
      st.1.adjacency.WF →
      st.1.adjacency.vector.length = orig.vector.length →
      MemoOK orig dead st.2 →
      ds.foldlM (rdnBit a dead fuel) st = some st2 →
      (∀ b, b ≠ a → st2.1.adjacency.row b = st.1.adjacency.row b) ∧
      st2.1.adjacency.WF ∧
      st2.1.adjacency.vector.length = orig.vector.length ∧
      MemoOK orig dead st2.2 ∧
      (∀ y, (st2.1.adjacency.row a).contains y = true ↔
        ((st.1.adjacency.row a).contains y = true ∨
          ∃ d ∈ ds, FltMem orig dead d y)) := by
  intro ds
  induction ds with
  | nil =>
    intro st st2 _ _ hwf hlen hmemo hrun
    simp only [List.foldlM_nil, Option.pure_def, Option.some.injEq] at hrun
    subst hrun
    exact ⟨fun b _ => rfl, hwf, hlen, hmemo, fun y => by simp⟩
  | cons d ds ih =>
    intro st st2 hds hdr hwf hlen hmemo hrun
    rw [List.foldlM_cons] at hrun
    cases hstep : rdnBit a dead fuel st d with
    | none => rw [hstep] at hrun; cases hrun
    | some st1 =>
      rw [hstep] at hrun
      have hrun2 : ds.foldlM (rdnBit a dead fuel) st1 = some st2 := hrun
      obtain ⟨f1, w1, l1, m1, rwf1, rm1⟩ :=
        rdnBit_spec orig dead hdwf a fuel st d ha_len
          (hds d (List.mem_cons_self _ _)) hdr hwf hlen hmemo st1 hstep
      have hdr1 : ∀ x, dead.contains x = true → st1.1.adjacency.row x = orig.row x := by
        intro x hx
        have hxa : x ≠ a := fun habs => by rw [habs, had] at hx; cases hx
        rw [f1 x hxa]
        exact hdr x hx
      obtain ⟨f2, w2, l2, m2, rm2⟩ :=
        ih st1 st2 (fun d0 h0 => hds d0 (List.mem_cons_of_mem _ h0)) hdr1 w1 l1 m1 hrun2
      refine ⟨?_, w2, l2, m2, ?_⟩
      · intro b hb
        rw [f2 b hb, f1 b hb]
      · intro y
        rw [rm2 y, rm1 y]
        constructor
        · rintro ((h | h) | ⟨d0, hd0, hf⟩)
          · exact Or.inl h
          · exact Or.inr ⟨d, List.mem_cons_self _ _, h⟩
          · exact Or.inr ⟨d0, List.mem_cons_of_mem _ hd0, hf⟩
        · rintro (h | ⟨d0, hd0, hf⟩)
          · exact Or.inl (Or.inl h)
          · rcases List.mem_cons.mp hd0 with h1 | h1
            · subst h1
              exact Or.inl (Or.inr hf)
            · exact Or.inr ⟨d0, h1, hf⟩

/-- Members of a chunk that is a stored entry of a well-formed set. -/
theorem entry_chunk_memb (dead : SparseBitSet) (k w : Nat)
    (hentry : mapGet dead.chunk_bits k = some w) (y : Nat) :
    (SparseChunk.mk k w).memb y = true ↔
      (dead.contains y = true ∧ y / wordBits = k) := by
  rw [SparseChunk.memb, Bool.and_eq_true, decide_eq_true_eq]
  constructor
  · rintro ⟨h1, h2⟩
    refine ⟨?_, h1.symm⟩
    rw [SparseBitSet.contains_eq_testBit, ← h1]
    rw [SparseBitSet.word, hentry, Option.getD_some]
    exact h2
  · rintro ⟨h1, h2⟩
    refine ⟨h2.symm, ?_⟩
    rw [SparseBitSet.contains_eq_testBit, h2, SparseBitSet.word, hentry,
      Option.getD_some] at h1
    exact h1

end MR

namespace MR

/-- Effect of one `dead_chunk` iteration (`rdnChunk`) on the processed
live row, relative to the row's current content. -/
theorem rdnChunk_spec (orig : SparseBitMatrix) (dead : SparseBitSet)
    (hdwf : dead.WF) (a : Nat) (fuel : Nat)
    (ha_len : a < orig.vector.length) (had : dead.contains a = false)
    (k w : Nat) (hentry : mapGet dead.chunk_bits k = some w)
    (st st2 : Relation × Memo)
    (hdr : ∀ x, dead.contains x = true → st.1.adjacency.row x = orig.row x)
    (hwf : st.1.adjacency.WF)
    (hlen : st.1.adjacency.vector.length = orig.vector.length)
    (hmemo : MemoOK orig dead st.2)
    (hrun : rdnChunk a dead fuel st ⟨k, w⟩ = some st2) :
    (∀ b, b ≠ a → st2.1.adjacency.row b = st.1.adjacency.row b) ∧
    st2.1.adjacency.WF ∧
    st2.1.adjacency.vector.length = orig.vector.length ∧
    MemoOK orig dead st2.2 ∧
    (∀ y, (st2.1.adjacency.row a).contains y = true ↔
      ((st.1.adjacency.row a).contains y = true ∧
        ¬(dead.contains y = true ∧ y / wordBits = k)) ∨
      (∃ d, (st.1.adjacency.row a).contains d = true ∧ dead.contains d = true ∧
        d / wordBits = k ∧ FltMem orig dead d y)) := by
  have hwlt : w < 2 ^ wordBits := by
    simpa using hdwf.2 (k, w) (mem_of_mapGet_eq_some hentry)
  have hmembdt : ∀ y,
      ((st.1.adjacency.row a).contains_chunk ⟨k, w⟩).memb y = true ↔
        (dead.contains y = true ∧ y / wordBits = k ∧
          (st.1.adjacency.row a).contains y = true) := by
    intro y
    rw [SparseBitSet.memb_contains_chunk, Bool.and_eq_true, entry_chunk_memb dead k w hentry]
    constructor
    · rintro ⟨⟨h1, h2⟩, h3⟩
      exact ⟨h1, h2, h3⟩
    · rintro ⟨h1, h2, h3⟩
      exact ⟨⟨h1, h2⟩, h3⟩
  have hdtlt : ((st.1.adjacency.row a).contains_chunk ⟨k, w⟩).bits < 2 ^ wordBits := by
    show (st.1.adjacency.row a).word k &&& w < 2 ^ wordBits
    exact Nat.and_lt_two_pow _ hwlt
  cases hany : ((st.1.adjacency.row a).contains_chunk ⟨k, w⟩).any with
  | false =>
    simp only [rdnChunk, hany, Bool.not_false, if_true, Option.some.injEq] at hrun
    subst hrun
    have hnm : ∀ y, ¬(((st.1.adjacency.row a).contains_chunk ⟨k, w⟩).memb y = true) := by
      intro y hy
      have : ((st.1.adjacency.row a).contains_chunk ⟨k, w⟩).any = true :=
        (SparseChunk.any_iff_exists_memb _ hdtlt).mpr ⟨y, hy⟩
      rw [hany] at this
      cases this
    refine ⟨fun b _ => rfl, hwf, hlen, hmemo, ?_⟩
    intro y
    constructor
    · intro h
      refine Or.inl ⟨h, ?_⟩
      rintro ⟨hdy, hky⟩
      exact hnm y ((hmembdt y).mpr ⟨hdy, hky, h⟩)
    · rintro (⟨h, _⟩ | ⟨d, hrd, hdd, hkd, hflt⟩)
      · exact h
      · exact absurd ((hmembdt d).mpr ⟨hdd, hkd, hrd⟩) (hnm d)
  | true =>
    simp only [rdnChunk, hany, Bool.not_true] at hrun
    rw [if_neg (fun habs => Bool.noConfusion habs)] at hrun
    cases hfold : ((st.1.adjacency.row a).contains_chunk ⟨k, w⟩).toList.foldlM
        (rdnBit a dead fuel) st with
    | none =>
      rw [hfold] at hrun
      cases hrun
    | some st1 =>
      rw [hfold] at hrun
      simp only [Option.some.injEq] at hrun
      obtain ⟨f1, w1, l1, m1, rm1⟩ :=
        rdnBitFold_spec orig dead hdwf a fuel ha_len had
          ((st.1.adjacency.row a).contains_chunk ⟨k, w⟩).toList st st1
          (fun d hd => ((hmembdt d).mp ((SparseChunk.mem_toList _ d).mp hd)).1)
          hdr hwf hlen hmemo hfold
      have hmidWF : (st1.1.adjacency.row a).WF := SparseBitMatrix.row_WF w1 a
      have hlt1 : a < st1.1.adjacency.vector.length := by rw [l1]; exact ha_len
      subst hrun
      refine ⟨?_, ?_, ?_, m1, ?_⟩
      · intro b hb
        show (st1.1.adjacency.row_set a
          ((st1.1.adjacency.row a).remove_chunk ⟨k, w⟩).2).row b = _
        rw [SparseBitMatrix.row_row_set_ne _ _ _ _ hb]
        exact f1 b hb
      · show (st1.1.adjacency.row_set a
          ((st1.1.adjacency.row a).remove_chunk ⟨k, w⟩).2).WF
        exact SparseBitMatrix.WF_row_set w1 (SparseBitSet.WF_remove_chunk _ hmidWF)
      · show (st1.1.adjacency.row_set a
          ((st1.1.adjacency.row a).remove_chunk ⟨k, w⟩).2).vector.length = _
        rw [SparseBitMatrix.length_row_set, l1]
      · intro y
        show ((st1.1.adjacency.row_set a
          ((st1.1.adjacency.row a).remove_chunk ⟨k, w⟩).2).row a).contains y = true ↔ _
        rw [SparseBitMatrix.row_row_set_self _ _ _ hlt1,
          SparseBitSet.contains_remove_chunk _ _ _ hmidWF.1, Bool.and_eq_true,
          Bool.not_eq_true', rm1 y]
        constructor
        · rintro ⟨h1 | ⟨d, hd, hflt⟩, h2⟩
          · refine Or.inl ⟨h1, ?_⟩
            rintro ⟨hdy, hky⟩
            have : (SparseChunk.mk k w).memb y = true :=
              (entry_chunk_memb dead k w hentry y).mpr ⟨hdy, hky⟩
            rw [this] at h2
            cases h2
          · obtain ⟨hdd, hkd, hrd⟩ := (hmembdt d).mp ((SparseChunk.mem_toList _ d).mp hd)
            exact Or.inr ⟨d, hrd, hdd, hkd, hflt⟩
        · rintro (⟨h1, h2⟩ | ⟨d, hrd, hdd, hkd, hflt⟩)
          · refine ⟨Or.inl h1, ?_⟩
            rw [Bool.eq_false_iff]
            intro habs
            exact h2 ((entry_chunk_memb dead k w hentry y).mp habs)
          · refine ⟨Or.inr ⟨d, (SparseChunk.mem_toList _ d).mpr
              ((hmembdt d).mpr ⟨hdd, hkd, hrd⟩), hflt⟩, ?_⟩
            rw [Bool.eq_false_iff]
            intro habs
            obtain ⟨hdy, _⟩ := (entry_chunk_memb dead k w hentry y).mp habs
            rw [hflt.1] at hdy
            cases hdy

end MR

namespace MR

/-- `FltMem` targets are never dead. -/
theorem FltMem.not_dead {orig : SparseBitMatrix} {dead : SparseBitSet} {d y : Nat}
    (h : FltMem orig dead d y) : dead.contains y = false := h.1

/-- Every dead node's chunk key occurs among the stored keys. -/
theorem key_mem_of_dead {dead : SparseBitSet} {y : Nat}
    (h : dead.contains y = true) :
    y / wordBits ∈ dead.chunk_bits.map Prod.fst := by
  rw [SparseBitSet.contains_eq_testBit] at h
  cases hget : mapGet dead.chunk_bits (y / wordBits) with
  | none =>
    rw [SparseBitSet.word, hget] at h
    simp at h
  | some v =>
    exact List.mem_map.mpr ⟨(y / wordBits, v), mem_of_mapGet_eq_some hget, rfl⟩

/-- Effect of the whole `for dead_chunk in dead_nodes.chunks()` fold on
the processed live row, for any suffix `ts` of the dead entry list. -/
theorem rdnChunkFold_spec (orig : SparseBitMatrix) (dead : SparseBitSet)
    (hdwf : dead.WF) (a : Nat) (fuel : Nat)
    (ha_len : a < orig.vector.length) (had : dead.contains a = false) :
    ∀ (ts : List (Nat × Nat)) (st st2 : Relation × Memo),
      (∀ p ∈ ts, mapGet dead.chunk_bits p.1 = some p.2) →
      (ts.map Prod.fst).Nodup →
      (∀ x, dead.contains x = true → st.1.adjacency.row x = orig.row x) →
      st.1.adjacency.WF →
      st.1.adjacency.vector.length = orig.vector.length →
      MemoOK orig dead st.2 →
      (ts.map fun kv => SparseChunk.mk kv.1 kv.2).foldlM
        (rdnChunk a dead fuel) st = some st2 →
      (∀ b, b ≠ a → st2.1.adjacency.row b = st.1.adjacency.row b) ∧
      st2.1.adjacency.WF ∧
      st2.1.adjacency.vector.length = orig.vector.length ∧
      MemoOK orig dead st2.2 ∧
      (∀ y, (st2.1.adjacency.row a).contains y = true ↔
        ((st.1.adjacency.row a).contains y = true ∧
          ¬(dead.contains y = true ∧ y / wordBits ∈ ts.map Prod.fst)) ∨
        (∃ d, (st.1.adjacency.row a).contains d = true ∧ dead.contains d = true ∧
          d / wordBits ∈ ts.map Prod.fst ∧ FltMem orig dead d y)) := by
  intro ts
  induction ts with
  | nil =>
    intro st st2 _ _ _ hwf hlen hmemo hrun
    simp only [List.map_nil, List.foldlM_nil, Option.pure_def, Option.some.injEq] at hrun
    subst hrun
    refine ⟨fun b _ => rfl, hwf, hlen, hmemo, fun y => ?_⟩
    simp
  | cons p ts ih =>
    obtain ⟨k, w⟩ := p
    intro st st2 hts hnd hdr hwf hlen hmemo hrun
    simp only [List.map_cons, List.foldlM_cons] at hrun
    cases hstep : rdnChunk a dead fuel st ⟨k, w⟩ with
    | none => rw [hstep] at hrun; cases hrun
    | some st1 =>
      rw [hstep] at hrun
      have hrun2 : (ts.map fun kv => SparseChunk.mk kv.1 kv.2).foldlM
          (rdnChunk a dead fuel) st1 = some st2 := hrun
      obtain ⟨f1, w1, l1, m1, rm1⟩ :=
        rdnChunk_spec orig dead hdwf a fuel ha_len had k w
          (hts (k, w) (List.mem_cons_self _ _)) st st1 hdr hwf hlen hmemo hstep
      have hdr1 : ∀ x, dead.contains x = true → st1.1.adjacency.row x = orig.row x := by
        intro x hx
        have hxa : x ≠ a := fun habs => by rw [habs, had] at hx; cases hx
        rw [f1 x hxa]
        exact hdr x hx
      have hknotin : k ∉ ts.map Prod.fst := by
        rw [List.map_cons, List.nodup_cons] at hnd
        exact hnd.1
      obtain ⟨f2, w2, l2, m2, rm2⟩ :=
        ih st1 st2 (fun p0 h0 => hts p0 (List.mem_cons_of_mem _ h0))
          (by rw [List.map_cons, List.nodup_cons] at hnd; exact hnd.2)
          hdr1 w1 l1 m1 hrun2
      refine ⟨?_, w2, l2, m2, ?_⟩
      · intro b hb
        rw [f2 b hb, f1 b hb]
      · intro y
        rw [rm2 y]
        simp only [List.map_cons, List.mem_cons]
        constructor
        · rintro (⟨h1, h2⟩ | ⟨d, hd1, hd2, hd3, hd4⟩)
          · rcases (rm1 y).mp h1 with ⟨h3, h4⟩ | ⟨d, hd1, hd2, hd3, hd4⟩
            · refine Or.inl ⟨h3, ?_⟩
              rintro ⟨hdy, (hk | hk)⟩
              · exact h4 ⟨hdy, hk⟩
              · exact h2 ⟨hdy, hk⟩
            · exact Or.inr ⟨d, hd1, hd2, Or.inl hd3, hd4⟩
          · rcases (rm1 d).mp hd1 with ⟨h3, _⟩ | ⟨d0, he1, he2, he3, he4⟩
            · exact Or.inr ⟨d, h3, hd2, Or.inr hd3, hd4⟩
            · rw [he4.not_dead] at hd2
              cases hd2
        · rintro (⟨h1, h2⟩ | ⟨d, hd1, hd2, hd3, hd4⟩)
          · refine Or.inl ⟨?_, ?_⟩
            · refine (rm1 y).mpr (Or.inl ⟨h1, ?_⟩)
              rintro ⟨hdy, hk⟩
              exact h2 ⟨hdy, Or.inl hk⟩
            · rintro ⟨hdy, hk⟩
              exact h2 ⟨hdy, Or.inr hk⟩
          · rcases hd3 with hk | hk
            · refine Or.inl ⟨?_, ?_⟩
              · exact (rm1 y).mpr (Or.inr ⟨d, hd1, hd2, hk, hd4⟩)
              · rintro ⟨hdy, _⟩
                rw [hd4.not_dead] at hdy
                cases hdy
            · refine Or.inr ⟨d, ?_, hd2, hk, hd4⟩
              refine (rm1 d).mpr (Or.inl ⟨hd1, ?_⟩)
              rintro ⟨_, hkd⟩
              rw [hkd] at hk
              exact hknotin hk

end MR

namespace MR

/-- Processing one live source whose row still holds its original
content rewrites that row to its destined content and touches nothing
else. -/
theorem rdnSource_spec (orig : SparseBitMatrix) (dead : SparseBitSet)
    (hdwf : dead.WF) (a : Nat) (fuel : Nat)
    (ha_len : a < orig.vector.length) (had : dead.contains a = false)
    (st st2 : Relation × Memo)
    (hdr : ∀ x, dead.contains x = true → st.1.adjacency.row x = orig.row x)
    (hwf : st.1.adjacency.WF)
    (hlen : st.1.adjacency.vector.length = orig.vector.length)
    (hmemo : MemoOK orig dead st.2)
    (hrow0 : st.1.adjacency.row a = orig.row a)
    (hrun : rdnSource dead fuel st a = some st2) :
    (∀ b, b ≠ a → st2.1.adjacency.row b = st.1.adjacency.row b) ∧
    st2.1.adjacency.WF ∧
    st2.1.adjacency.vector.length = orig.vector.length ∧
    MemoOK orig dead st2.2 ∧
    DesRow orig dead a (st2.1.adjacency.row a) := by
  have hrun2 : (dead.chunk_bits.map fun kv => SparseChunk.mk kv.1 kv.2).foldlM
      (rdnChunk a dead fuel) st = some st2 := hrun
  have hts : ∀ p ∈ dead.chunk_bits, mapGet dead.chunk_bits p.1 = some p.2 := by
    intro p hp
    obtain ⟨k, w⟩ := p
    exact mapGet_eq_some_of_mem hdwf.1 hp
  have hnd : (dead.chunk_bits.map Prod.fst).Nodup := by
    have h1 : (dead.chunk_bits.map Prod.fst).Pairwise (fun x y => x < y) :=
      List.pairwise_map.mpr hdwf.1
    exact h1.imp (fun h => Nat.ne_of_lt h)
  obtain ⟨f2, w2, l2, m2, rm2⟩ :=
    rdnChunkFold_spec orig dead hdwf a fuel ha_len had dead.chunk_bits
      st st2 hts hnd hdr hwf hlen hmemo hrun2
  refine ⟨f2, w2, l2, m2, SparseBitMatrix.row_WF w2 a, ?_⟩
  intro y
  rw [rm2 y, hrow0]
  unfold Des
  constructor
  · rintro (⟨h1, h2⟩ | ⟨d, hd1, hd2, _, hd4⟩)
    · refine Or.inl ⟨h1, ?_⟩
      cases hdy : dead.contains y with
      | false => rfl
      | true => exact absurd ⟨hdy, key_mem_of_dead hdy⟩ h2
    · exact Or.inr ⟨d, hd1, hd2, hd4⟩
  · rintro (⟨h1, h2⟩ | ⟨d, hd1, hd2, hd4⟩)
    · refine Or.inl ⟨h1, ?_⟩
      rintro ⟨hdy, _⟩
      rw [h2] at hdy
      cases hdy
    · exact Or.inr ⟨d, hd1, hd2, key_mem_of_dead hd2, hd4⟩

/-- Processing a live source whose row already holds its destined
content is a no-op: the row has no dead member, so every chunk guard
is false. -/
theorem rdnSource_noop (orig : SparseBitMatrix) (dead : SparseBitSet)
    (hdwf : dead.WF) (a : Nat) (fuel : Nat) (st : Relation × Memo)
    (hwf : st.1.adjacency.WF)
    (hdes : DesRow orig dead a (st.1.adjacency.row a)) :
    rdnSource dead fuel st a = some st := by
  have hnodead : ∀ y, (st.1.adjacency.row a).contains y = true →
      dead.contains y = false := by
    intro y hy
    rcases (hdes.2 y).mp hy with ⟨_, h2⟩ | ⟨_, _, _, hf⟩
    · exact h2
    · exact hf.1
  unfold rdnSource
  have key : ∀ cs : List SparseChunk,
      (∀ c ∈ cs, ∀ y, c.memb y = true → dead.contains y = true) →
      cs.foldlM (rdnChunk a dead fuel) st = some st := by
    intro cs
    induction cs with
    | nil => intro _; rfl
    | cons c cs ih =>
      intro hcs
      have hstep : rdnChunk a dead fuel st c = some st := by
        have hlt : ((st.1.adjacency.row a).contains_chunk c).bits < 2 ^ wordBits := by
          show (st.1.adjacency.row a).word c.key &&& c.bits < 2 ^ wordBits
          rw [Nat.and_comm]
          exact Nat.and_lt_two_pow c.bits
            (SparseBitSet.word_lt_of_WF (SparseBitMatrix.row_WF hwf a) c.key)
        have hany : ((st.1.adjacency.row a).contains_chunk c).any = false := by
          cases hA : ((st.1.adjacency.row a).contains_chunk c).any with
          | false => rfl
          | true =>
            obtain ⟨y, hy⟩ := (SparseChunk.any_iff_exists_memb _ hlt).mp hA
            rw [SparseBitSet.memb_contains_chunk, Bool.and_eq_true] at hy
            have hdy := hcs c (List.mem_cons_self _ _) y hy.1
            rw [hnodead y hy.2] at hdy
            cases hdy
        rw [rdnChunk, hany]
        rfl
      rw [List.foldlM_cons, hstep]
      exact ih fun c0 h0 => hcs c0 (List.mem_cons_of_mem _ h0)
  refine key dead.chunks ?_
  intro c hc y hy
  obtain ⟨kv, hkv, rfl⟩ := List.mem_map.mp hc
  have hentry : mapGet dead.chunk_bits kv.1 = some kv.2 := by
    obtain ⟨k, w⟩ := kv
    exact mapGet_eq_some_of_mem hdwf.1 hkv
  exact ((entry_chunk_memb dead kv.1 kv.2 hentry y).mp hy).1

end MR

namespace MR

/-- The destined row content at `y` is exactly: `y` is not dead and a
dead-interior path leads from `a` to `y` in the original matrix. -/
theorem Des_iff (orig : SparseBitMatrix) (dead : SparseBitSet) (a y : Nat) :
    Des orig dead a y ↔
      (dead.contains y = false ∧ DeadPath orig dead a y) := by
  constructor
  · rintro (⟨h1, h2⟩ | ⟨d, hd1, hd2, hf⟩)
    · exact ⟨h2, DeadPath.direct h1⟩
    · exact ⟨hf.1, DeadPath.step hd1 hd2 hf.2⟩
  · rintro ⟨h1, h2⟩
    cases h2 with
    | direct h => exact Or.inl ⟨h, h1⟩
    | step h hd hp => exact Or.inr ⟨_, h, hd, h1, hp⟩

/-- The outer `for live_source in live_nodes` loop: it establishes the
destined content of every processed row, keeps the invariant, and
leaves unprocessed rows alone. -/
theorem rdnSourceFold_spec (orig : SparseBitMatrix) (dead : SparseBitSet)
    (hdwf : dead.WF) (fuel : Nat) :
    ∀ (live : List Nat) (st st2 : Relation × Memo),
      (∀ a ∈ live, a < orig.vector.length) →
      (∀ a ∈ live, dead.contains a = false) →
      OInv orig dead st →
      live.foldlM (rdnSource dead fuel) st = some st2 →
      OInv orig dead st2 ∧
      (∀ a ∈ live, DesRow orig dead a (st2.1.adjacency.row a)) ∧
      (∀ b, b ∉ live → st2.1.adjacency.row b = st.1.adjacency.row b) := by
  intro live
  induction live with
  | nil =>
    intro st st2 _ _ hinv hrun
    simp only [List.foldlM_nil, Option.pure_def, Option.some.injEq] at hrun
    subst hrun
    exact ⟨hinv, by simp, fun b _ => rfl⟩
  | cons a live ih =>
    intro st st2 hlen hdead hinv hrun
    rw [List.foldlM_cons] at hrun
    cases hstep : rdnSource dead fuel st a with
    | none => rw [hstep] at hrun; cases hrun
    | some st1 =>
      rw [hstep] at hrun
      have hrun2 : live.foldlM (rdnSource dead fuel) st1 = some st2 := hrun
      have ha_len : a < orig.vector.length := hlen a (List.mem_cons_self _ _)
      have had : dead.contains a = false := hdead a (List.mem_cons_self _ _)
      obtain ⟨hdr, hwf, hlenm, hmemo, hrows⟩ := hinv
      have hstate : OInv orig dead st1 ∧
          DesRow orig dead a (st1.1.adjacency.row a) ∧
          (∀ b, b ≠ a → st1.1.adjacency.row b = st.1.adjacency.row b) := by
        rcases hrows a with hA | hA
        · obtain ⟨f1, w1, l1, m1, des1⟩ :=
            rdnSource_spec orig dead hdwf a fuel ha_len had st st1
              hdr hwf hlenm hmemo hA hstep
          refine ⟨⟨?_, w1, l1, m1, ?_⟩, des1, f1⟩
          · intro x hx
            have hxa : x ≠ a := fun habs => by rw [habs, had] at hx; cases hx
            rw [f1 x hxa]
            exact hdr x hx
          · intro b
            by_cases hb : b = a
            · subst hb
              exact Or.inr des1
            · rw [f1 b hb]
              exact hrows b
        · have hnoop := rdnSource_noop orig dead hdwf a fuel st hwf hA
          rw [hnoop, Option.some.injEq] at hstep
          subst hstep
          exact ⟨⟨hdr, hwf, hlenm, hmemo, hrows⟩, hA, fun b _ => rfl⟩
      obtain ⟨hinv1, hdes1, hframe1⟩ := hstate
      obtain ⟨hinv2, hdes2, hframe2⟩ :=
        ih st1 st2 (fun x hx => hlen x (List.mem_cons_of_mem _ hx))
          (fun x hx => hdead x (List.mem_cons_of_mem _ hx)) hinv1 hrun2
      refine ⟨hinv2, ?_, ?_⟩
      · intro x hx
        rcases List.mem_cons.mp hx with hx | hx
        · subst hx
          by_cases hxl : x ∈ live
          · exact hdes2 x hxl
          · rw [hframe2 x hxl]
            exact hdes1
        · exact hdes2 x hx
      · intro b hb
        rw [List.mem_cons] at hb
        push_neg at hb
        rw [hframe2 b hb.2]
        exact hframe1 b hb.1

end MR

namespace SparseBitMatrix

/-- Setting a row to a value yields that row (out of range, the row
reads back as the empty default anyway). -/
theorem row_row_set_self_new (m : SparseBitMatrix) (r : Nat) :
    (m.row_set r SparseBitSet.new).row r = SparseBitSet.new := by
  by_cases hr : r < m.vector.length
  · exact row_row_set_self m r _ hr
  · have hset : m.vector.set r SparseBitSet.new = m.vector :=
      List.set_eq_of_length_le (Nat.le_of_not_lt hr)
    show (m.vector.set r SparseBitSet.new).getD r SparseBitSet.new = SparseBitSet.new
    rw [hset]
    exact List.getD_eq_default _ _ (Nat.le_of_not_lt hr)

/-- Rows after the final clearing fold of `remove_dead_nodes`. -/
theorem clearFold_row (ds : List Nat) :
    ∀ (adj : SparseBitMatrix) (b : Nat),
      (ds.foldl (fun m d => m.row_set d SparseBitSet.new) adj).row b
        = if b ∈ ds then SparseBitSet.new else adj.row b := by
  induction ds with
  | nil =>
    intro adj b
    simp
  | cons a ds ih =>
    intro adj b
    rw [List.foldl_cons, ih]
    by_cases hb : b ∈ ds
    · rw [if_pos hb, if_pos (List.mem_cons_of_mem _ hb)]
    · rw [if_neg hb]
      by_cases hba : b = a
      · subst hba
        rw [if_pos (List.mem_cons_self _ _)]
        exact row_row_set_self_new adj b
      · rw [row_row_set_ne _ _ _ _ hba]
        rw [if_neg (fun habs => by
          rcases List.mem_cons.mp habs with h | h
          · exact hba h
          · exact hb h)]

/-- The clearing fold keeps the number of rows. -/
theorem clearFold_length (ds : List Nat) :
    ∀ (adj : SparseBitMatrix),
      (ds.foldl (fun m d => m.row_set d SparseBitSet.new) adj).vector.length
        = adj.vector.length := by
  induction ds with
  | nil => intro adj; rfl
  | cons a ds ih =>
    intro adj
    rw [List.foldl_cons, ih, length_row_set]

/-- The clearing fold keeps well-formedness. -/
theorem clearFold_WF (ds : List Nat) :
    ∀ (adj : SparseBitMatrix), adj.WF →
      (ds.foldl (fun m d => m.row_set d SparseBitSet.new) adj).WF := by
  induction ds with
  | nil => intro adj h; exact h
  | cons a ds ih =>
    intro adj h
    rw [List.foldl_cons]
    exact ih _ (WF_row_set h (by constructor <;> simp [SparseBitSet.new]))

end SparseBitMatrix

/-- **C1.**  For a matrix-form relation whose nodes are partitioned into
live and dead sets, `remove_dead_nodes(live, dead)` rewrites the graph
so that for live `a` and non-dead `b` the edge `a → b` is present iff
the old graph had a path `a → d1 → … → dk → b` with all interior nodes
dead (`k = 0` allowed), and afterwards no edge incident to a dead node
remains: every dead node's row is empty and no live row contains a dead
node. -/
theorem C1_remove_dead_nodes_spec
    (r r2 : MR.Relation) (live : List Nat) (dead : SparseBitSet) (fuel : Nat)
    (hwf : r.adjacency.WF) (hdwf : dead.WF)
    (hlive_len : ∀ a ∈ live, a < r.adjacency.vector.length)
    (hlive_dead : ∀ a ∈ live, dead.contains a = false)
    (hrun : r.remove_dead_nodes live dead fuel = some r2) :
    (∀ a ∈ live, ∀ b, dead.contains b = false →
      ((r2.adjacency.row a).contains b = true ↔ MR.DeadPath r.adjacency dead a b)) ∧
    (∀ d, dead.contains d = true → r2.adjacency.row d = SparseBitSet.new) ∧
    (∀ a ∈ live, ∀ d, dead.contains d = true →
      (r2.adjacency.row a).contains d = false) := by
  cases hfold : live.foldlM (MR.rdnSource dead fuel) (r, ([] : MR.Memo)) with
  | none =>
    simp only [MR.Relation.remove_dead_nodes, hfold] at hrun
    cases hrun
  | some st =>
    simp only [MR.Relation.remove_dead_nodes, hfold, Option.some.injEq] at hrun
    have hinv0 : MR.OInv r.adjacency dead (r, ([] : MR.Memo)) := by
      refine ⟨fun x _ => rfl, hwf, rfl, ?_, fun b => Or.inl rfl⟩
      intro k v h
      simp [MR.memoGet] at h
    obtain ⟨hinv2, hdes2, _⟩ :=
      MR.rdnSourceFold_spec r.adjacency dead hdwf fuel live (r, ([] : MR.Memo)) st
        hlive_len hlive_dead hinv0 hfold
    have hrow2 : ∀ b, r2.adjacency.row b
        = if b ∈ dead.toList then SparseBitSet.new else st.1.adjacency.row b := by
      intro b
      rw [← hrun]
      exact SparseBitMatrix.clearFold_row dead.toList st.1.adjacency b
    have hlive_row : ∀ a ∈ live, r2.adjacency.row a = st.1.adjacency.row a := by
      intro a ha
      rw [hrow2 a, if_neg]
      intro habs
      have h := hlive_dead a ha
      rw [(SparseBitSet.mem_toList_iff dead a hdwf).mp habs] at h
      exact Bool.noConfusion h
    refine ⟨?_, ?_, ?_⟩
    · intro a ha b hb
      rw [hlive_row a ha, (hdes2 a ha).2 b, MR.Des_iff]
      constructor
      · exact fun h => h.2
      · exact fun h => ⟨hb, h⟩
    · intro d hd
      rw [hrow2 d, if_pos ((SparseBitSet.mem_toList_iff dead d hdwf).mpr hd)]
    · intro a ha d hd
      rw [hlive_row a ha]
      cases hc : (st.1.adjacency.row a).contains d with
      | false => rfl
      | true =>
        have := ((hdes2 a ha).2 d).mp hc
        rw [(MR.Des_iff r.adjacency dead a d).mp this |>.1] at hd
        exact Bool.noConfusion hd

/-- C1 on the chain `0 → 1 → 2` with node `1` dead and `live = [0, 2]`:
the rewritten row of `0` holds `2` exactly when a dead-interior path
`0 → 2` existed (here `0 → 1 → 2`). -/
theorem C1_remove_dead_nodes_spec_witness :
    (((⟨⟨[⟨[(0, 4)]⟩, ⟨[]⟩, ⟨[]⟩]⟩⟩ : MR.Relation).adjacency.row 0).contains 2 = true
      ↔ MR.DeadPath ((((MR.Relation.new 3).add_edge 0 1).2.add_edge 1 2).2).adjacency
          ⟨[(0, 2)]⟩ 0 2) :=
  (C1_remove_dead_nodes_spec ((((MR.Relation.new 3).add_edge 0 1).2.add_edge 1 2).2)
      ⟨⟨[⟨[(0, 4)]⟩, ⟨[]⟩, ⟨[]⟩]⟩⟩ [0, 2] ⟨[(0, 2)]⟩ 50
      (by decide) (by decide) (by decide) (by decide) (by decide)).1
    0 (by decide) 2 (by decide)

end BC
